import Mathlib

/-
Formal model of the neuroflow-ide machine-learning backend
(src/backend of PraneethV-cmd/neuroflow-ide).

Shallow embedding conventions:
* Numeric matrices and vectors are lists of rationals (row-major:
  a matrix is the list of its sample rows), mirroring exact real
  arithmetic; numpy's elementwise broadcasting over equally shaped
  arrays is rendered with zip/map, and reductions with List.sum.
* numpy mean/std/var use the population convention (ddof = 0);
  np.cov uses ddof = 1.  Both are modelled explicitly below.
* Values that the source obtains from irrational primitives
  (np.std's square root, np.linalg.eig, np.linalg.norm) are passed
  to the model as explicit arguments; theorems that depend on their
  numeric value carry a hypothesis certifying the value (for example
  that a supplied standard deviation squares to the variance).
* Fallible code is rendered with Except; a raised ValueError guarding
  the fitted state is the NotFitted error of the spec, and a Python
  TypeError arising from arithmetic on a None field is modelled as a
  distinct error value.
-/

/-- Arithmetic mean of a list of rationals, as np.mean: sum divided by
length (division by zero yields 0 on the empty list, where numpy would
produce NaN; theorems about nonempty data never hit that case). -/
def meanQ (l : List ℚ) : ℚ := l.sum / l.length

/-- Population variance (np.var / np.std squared, ddof = 0): mean of
squared deviations from the mean. -/
def varQ (l : List ℚ) : ℚ := meanQ (l.map (fun x => (x - meanQ l) ^ 2))

/-- Literal 1e-10, the near-zero cutoff used throughout the backend. -/
def eps10 : ℚ := 1 / 10 ^ 10

/-- Zero-variance guard applied to a standard deviation, as
np.where(std < 1e-10, 1.0, std). -/
def guardStd (s : ℚ) : ℚ := if s < eps10 then 1 else s

/-- Python int() applied to a rational: truncation toward zero. -/
def truncQ (q : ℚ) : ℤ := if q < 0 then -⌊-q⌋ else ⌊q⌋

/-- Squared deviations of predictions, Σ (t - p)^2 over paired entries
(numpy elementwise subtraction of equally sized arrays). -/
def ssRes (yTrue yPred : List ℚ) : ℚ :=
  ((yTrue.zip yPred).map (fun p => (p.1 - p.2) ^ 2)).sum

/-- Total sum of squares Σ (t - mean)^2. -/
def ssTot (yTrue : List ℚ) : ℚ :=
  (yTrue.map (fun x => (x - meanQ yTrue) ^ 2)).sum

/-- Model of the r2_score field computed by regression_metrics
(src/backend/utils/metrics.py lines 17-37): an empty input returns the
early-exit value 0.0; otherwise R2 is 1 - SSres/SStot clamped to
[-1, 1], with the near-zero SStot cases resolved first. -/
def r2_score (yTrue yPred : List ℚ) : ℚ :=
  if yTrue.length = 0 then 0
  else
    let res := ssRes yTrue yPred
    let tot := ssTot yTrue
    if |tot| < eps10 then (if |res| < eps10 then 1 else 0)
    else max (-1) (min 1 (1 - res / tot))

/-- Claimed R2, written from the spec sentence: 1 - SSres/SStot clamped
to [-1,1] when |SStot| >= 1e-10; 1.0 when both sums are below 1e-10;
0.0 when only SStot is. -/
def specR2 (yTrue yPred : List ℚ) : ℚ :=
  let res := ssRes yTrue yPred
  let tot := ssTot yTrue
  if eps10 ≤ |tot| then max (-1) (min 1 (1 - res / tot))
  else if |res| < eps10 then 1 else 0

/-- Claim C7 counterexample: the claim quantifies over every pair of
equal-length vectors, but on the empty pair the code's early exit
returns 0.0 while the claimed case analysis (both sums are 0, hence
below 1e-10) demands 1.0. -/
theorem r2_score_claim_fails_on_empty :
    r2_score [] [] = 0 ∧ specR2 [] [] = 1 ∧ (0 : ℚ) ≠ 1 := by
  refine ⟨rfl, ?_, by norm_num⟩
  norm_num [specR2, ssRes, ssTot, eps10]

/-- Claim C7 (amended): for every pair of equal-length NONEMPTY numeric
vectors, the r2_score returned by regression_metrics equals the claimed
case analysis: 1 - SSres/SStot clamped to [-1,1] when |SStot| >= 1e-10,
1.0 when both |SSres| and |SStot| are below 1e-10, and 0.0 when only
|SStot| is.  (The empty pair instead takes the early-exit path and
returns 0.0.) -/
theorem r2_score_matches_spec (yTrue yPred : List ℚ)
    (_hlen : yTrue.length = yPred.length) (hne : 0 < yTrue.length) :
    r2_score yTrue yPred = specR2 yTrue yPred := by
  have h0 : ¬ yTrue.length = 0 := Nat.pos_iff_ne_zero.mp hne
  unfold r2_score specR2
  simp only [h0, if_false]
  rcases lt_or_le |ssTot yTrue| eps10 with h | h
  · rw [if_pos h, if_neg (not_le.mpr h)]
  · rw [if_neg (not_lt.mpr h), if_pos h]

/-- Witness for r2_score_matches_spec at yTrue = [1, 3], yPred = [1, 2]:
both hypotheses hold and the common value is 1 - 1/2 = 1/2. -/
theorem r2_score_matches_spec_witness :
    r2_score [1, 3] [1, 2] = specR2 [1, 3] [1, 2] ∧
      r2_score [1, 3] [1, 2] = 1 / 2 := by
  refine ⟨r2_score_matches_spec [1, 3] [1, 2] rfl (by norm_num), ?_⟩
  norm_num [r2_score, ssRes, ssTot, meanQ, eps10]

/-- Result quadruple of train_test_split. -/
structure SplitResult where
  X_train : List (List ℚ)
  X_test : List (List ℚ)
  y_train : List ℚ
  y_test : List ℚ
deriving Repr, DecidableEq

/-- Test-partition size as the code computes it: n_test = max(1,
int(n_samples * test_size)), Python int() truncating toward zero. -/
def codeNTest (n : ℕ) (testSize : ℚ) : ℕ := max 1 (truncQ ((n : ℚ) * testSize)).toNat

/-- Model of train_test_split (src/backend/utils/preprocessing.py lines
3-26).  The random permutation produced by np.random.permutation is
passed in as perm (a permutation of range n); n_test uses Python int(),
i.e. truncation, and the split raises ValueError (the spec's
InvalidInput) when fewer than one training row would remain. -/
def train_test_split (X : List (List ℚ)) (y : List ℚ) (testSize : ℚ)
    (perm : List ℕ) : Except String SplitResult :=
  let n := X.length
  let nTest := codeNTest n testSize
  if (n : ℤ) - (nTest : ℤ) < 1 then
    Except.error "Not enough samples for training"
  else
    let testIdx := perm.take nTest
    let trainIdx := perm.drop nTest
    Except.ok
      { X_train := trainIdx.map (fun i => X.getD i [])
        X_test := testIdx.map (fun i => X.getD i [])
        y_train := trainIdx.map (fun i => y.getD i 0)
        y_test := testIdx.map (fun i => y.getD i 0) }

/-- Claimed test-partition size, from the claim's words: max(1,
round(n * test_size)).  Mathlib's round rounds half up where Python
rounds half to even; no input considered below sits on a half. -/
def specNTest (n : ℕ) (testSize : ℚ) : ℕ := max 1 (round ((n : ℚ) * testSize)).toNat

/-- Dataset of 8 single-feature rows used to refute claim C2. -/
def c2X : List (List ℚ) := (List.range 8).map (fun i => [(i : ℚ)])

/-- Targets for c2X. -/
def c2Y : List ℚ := (List.range 8).map (fun i => (i : ℚ))

/-- Claim C2 counterexample: with n = 8 rows and test_size = 0.2 the
code computes n_test = max(1, int(8 * 0.2)) = max(1, int(1.6)) = 1
(Python int truncates), while the claim demands max(1, round(1.6)) = 2;
the returned test partition indeed has 1 row, not 2. -/
theorem train_test_split_claim_fails_on_8_rows :
    (train_test_split c2X c2Y (1 / 5) (List.range 8)).toOption.map
        (fun r => r.X_test.length) = some 1
    ∧ specNTest 8 (1 / 5) = 2 ∧ (1 : ℕ) ≠ 2 := by
  refine ⟨?_, ?_, by decide⟩
  · have h1 : codeNTest 8 (1 / 5) = 1 := by
      norm_num [codeNTest, truncQ, Int.floor_eq_iff]
    norm_num [train_test_split, h1, c2X, c2Y, List.range_succ]
    exact ⟨_, rfl, rfl⟩
  · have h2 : round ((8 : ℚ) / 5) = 2 := by
      norm_num [round_eq, Int.floor_eq_iff]
    norm_num [specNTest]
    rw [h2]
    decide

/-- Claim C2 (amended): train_test_split computes n_test =
max(1, trunc(n * test_size)) — Python int() truncation, not rounding —
and n_train = n - n_test; it fails with InvalidInput (ValueError) when
n_train < 1, and otherwise returns a test partition of exactly n_test
rows and a training partition of exactly n - n_test rows. -/
theorem train_test_split_sizes (X : List (List ℚ)) (y : List ℚ)
    (testSize : ℚ) (perm : List ℕ) (hperm : perm.length = X.length) :
    ((X.length : ℤ) - (codeNTest X.length testSize : ℤ) < 1 →
      train_test_split X y testSize perm = Except.error "Not enough samples for training")
    ∧ (1 ≤ (X.length : ℤ) - (codeNTest X.length testSize : ℤ) →
      ∃ r, train_test_split X y testSize perm = Except.ok r
        ∧ r.X_test.length = codeNTest X.length testSize
        ∧ r.X_train.length = X.length - codeNTest X.length testSize) := by
  constructor
  · intro h
    simp only [train_test_split]
    rw [if_pos h]
  · intro h
    simp only [train_test_split]
    rw [if_neg (not_lt.mpr h)]
    have hle : codeNTest X.length testSize ≤ X.length := by
      by_contra hgt
      push_neg at hgt
      have : (X.length : ℤ) < (codeNTest X.length testSize : ℤ) := by exact_mod_cast hgt
      omega
    refine ⟨_, rfl, ?_, ?_⟩
    · simp [List.length_take, hperm, hle]
    · simp [List.length_drop, hperm]

/-- Witness for train_test_split_sizes at 5 rows, test_size = 1/5,
perm = range 5: n_test = max(1, trunc(1)) = 1 and the split succeeds
with 1 test row and 4 training rows. -/
theorem train_test_split_sizes_witness :
    ∃ r, train_test_split [[0], [1], [2], [3], [4]] ([0, 1, 2, 3, 4] : List ℚ)
          (1 / 5) [0, 1, 2, 3, 4] = Except.ok r
        ∧ r.X_test.length = codeNTest 5 (1 / 5)
        ∧ r.X_train.length = 5 - codeNTest 5 (1 / 5) := by
  have hn : codeNTest 5 (1 / 5) = 1 := by
    norm_num [codeNTest, truncQ, Int.floor_eq_iff]
  have h := (train_test_split_sizes [[0], [1], [2], [3], [4]] ([0, 1, 2, 3, 4] : List ℚ)
    (1 / 5) [0, 1, 2, 3, 4] rfl).2
  exact h (by norm_num [codeNTest, truncQ])

/-- Model of the solver-method resolution performed by
LinearRegression.fit (src/backend/models/regression.py lines 116-147):
when n_samples < n_features the instance field self.method is
overwritten with the string for gradient descent (lines 119-121), and
the actual method then resolves from the (possibly overwritten) stored
field, expanding only the automatic choice (lines 141-147).  Returns
(stored method after fit, solver actually used). -/
def resolveFitMethod (method : String) (nSamples nFeatures : ℕ) : String × String :=
  let stored := if nSamples < nFeatures then "gradient" else method
  let actual :=
    if stored = "auto" then
      (if 1000 < nSamples ∨ nSamples < nFeatures then "gradient" else "normal")
    else stored
  (stored, actual)

/-- Claim C10 (confirmed): if fit sees n_samples < n_features then the
gradient-descent solver is used regardless of the configured method,
the stored method field is permanently overwritten to the gradient
string, and every subsequent fit of the instance therefore also
resolves to gradient descent. -/
theorem fit_overwrites_method_when_underdetermined
    (method : String) (nSamples nFeatures : ℕ) (h : nSamples < nFeatures) :
    resolveFitMethod method nSamples nFeatures = ("gradient", "gradient")
    ∧ ∀ nS nF : ℕ,
        resolveFitMethod (resolveFitMethod method nSamples nFeatures).1 nS nF =
          ("gradient", "gradient") := by
  have hstored : resolveFitMethod method nSamples nFeatures =
      ("gradient", "gradient") := by
    unfold resolveFitMethod
    simp [h]
  refine ⟨hstored, fun nS nF => ?_⟩
  rw [hstored]
  unfold resolveFitMethod
  by_cases hlt : nS < nF <;> simp [hlt]

/-- Witness for fit_overwrites_method_when_underdetermined: a model
configured with the normal-equation method, fitted on 1 sample of 2
features, stores and uses gradient descent, and a later fit on 3
samples of 1 feature still uses gradient descent. -/
theorem fit_overwrites_method_witness :
    resolveFitMethod "normal" 1 2 = ("gradient", "gradient")
    ∧ resolveFitMethod (resolveFitMethod "normal" 1 2).1 3 1 =
        ("gradient", "gradient") := by
  have h := fit_overwrites_method_when_underdetermined "normal" 1 2 (by decide)
  exact ⟨h.1, h.2 3 1⟩

/-- First index of the running maximum, scanning with current best value
best at index bestIdx and next position i: np.argmax keeps the first
occurrence, so the best is replaced only on a strict increase. -/
def argmaxFrom {α : Type} [LinearOrder α] (best : α) (bestIdx i : ℕ) : List α → ℕ
  | [] => bestIdx
  | x :: xs => if best < x then argmaxFrom x i (i + 1) xs else argmaxFrom best bestIdx (i + 1) xs

/-- Model of np.argmax: index of the first occurrence of the maximum
(0 on the empty list, where numpy would raise). -/
def argmaxIdx {α : Type} [LinearOrder α] : List α → ℕ
  | [] => 0
  | x :: xs => argmaxFrom x 0 1 xs

/-- Cumulative sums with running accumulator. -/
def cumsumFrom (acc : ℚ) : List ℚ → List ℚ
  | [] => []
  | x :: xs => (acc + x) :: cumsumFrom (acc + x) xs

/-- Model of np.cumsum on a rational vector. -/
def cumsum (l : List ℚ) : List ℚ := cumsumFrom 0 l

/-- Descending insertion of a value into a sorted list. -/
def insertDescQ (x : ℚ) : List ℚ → List ℚ
  | [] => [x]
  | y :: ys => if y < x then x :: y :: ys else y :: insertDescQ x ys

/-- Descending sort, modelling the reordering eigenvalues[argsort[::-1]]
performed by PCA.fit (only the sorted values matter downstream). -/
def sortDesc : List ℚ → List ℚ
  | [] => []
  | x :: xs => insertDescQ x (sortDesc xs)

/-- Explained-variance computation of PCA.fit from the eigenvalues of
the covariance matrix (src/backend/models/decomposition.py lines
67-81): sort descending, clamp negatives to zero, and normalise by the
total, except that a near-zero total yields an all-zero vector of
length n_features. -/
def pcaRatios (nf : ℕ) (eigs : List ℚ) : List ℚ :=
  let clamped := (sortDesc eigs).map (fun v => max v 0)
  let total := clamped.sum
  if total < eps10 then List.replicate nf 0
  else clamped.map (fun v => v / total)

/-- Component-count resolution of PCA.fit (decomposition.py lines
85-97): the variance threshold is consulted FIRST (np.argmax over the
boolean array cumulative >= threshold, plus one, floored at 1), the
explicit count (capped to n_features) only when no threshold was given,
and all features by default. -/
def pcaResolveCount (nComp : Option ℕ) (thr : Option ℚ) (ratios : List ℚ) (nf : ℕ) : ℕ :=
  match thr with
  | some t => max 1 (argmaxIdx ((cumsum ratios).map (fun c => decide (t ≤ c))) + 1)
  | none =>
    match nComp with
    | some k => min k nf
    | none => nf

/-- Number of components kept by PCA.fit, as a function of the
configuration and the eigenvalues np.linalg.eig returns for the
covariance matrix (passed in explicitly, since eigenvalues of a general
matrix are irrational; fit sorts them itself). -/
def pcaFitCount (nComp : Option ℕ) (thr : Option ℚ) (nf : ℕ) (eigs : List ℚ) : ℕ :=
  pcaResolveCount nComp thr (pcaRatios nf eigs) nf

/-- Column j of a row-major matrix (out-of-range entries default to 0;
theorems only use indices within the stated dimension). -/
def colVals (X : List (List ℚ)) (j : ℕ) : List ℚ := X.map (fun r => r.getD j 0)

/-- Per-feature means, np.mean(X, axis=0). -/
def colMeans (d : ℕ) (X : List (List ℚ)) : List ℚ :=
  (List.range d).map (fun j => meanQ (colVals X j))

/-- Centered data X - np.mean(X, axis=0), the standardize=False branch
of PCA.fit (decomposition.py lines 57-58). -/
def centerX (d : ℕ) (X : List (List ℚ)) : List (List ℚ) :=
  X.map (fun r => (List.range d).map (fun j => r.getD j 0 - meanQ (colVals X j)))

/-- Model of np.cov(M.T) for a row-major observation matrix M with d
features: entry (j, k) is the mean-centered cross product of columns j
and k divided by n - 1 (numpy's default ddof = 1 for np.cov). -/
def npCov (d : ℕ) (M : List (List ℚ)) : List (List ℚ) :=
  (List.range d).map (fun j =>
    (List.range d).map (fun k =>
      ((((colVals M j).map (fun a => a - meanQ (colVals M j))).zip
          ((colVals M k).map (fun b => b - meanQ (colVals M k)))).map
        (fun p => p.1 * p.2)).sum / ((M.length : ℚ) - 1)))

/-- Matrix-vector product over rational lists. -/
def mulVecQ (M : List (List ℚ)) (v : List ℚ) : List ℚ :=
  M.map (fun row => ((row.zip v).map (fun p => p.1 * p.2)).sum)

/-- lam is an eigenvalue of the square matrix M: some nonzero vector is
scaled by lam under M. -/
def IsEigenvalueOf (M : List (List ℚ)) (lam : ℚ) : Prop :=
  ∃ v : List ℚ, v.length = M.length ∧ v ≠ List.replicate M.length 0
    ∧ mulVecQ M v = v.map (fun x => lam * x)

/-- Position i is the first cumulative ratio meeting the threshold t. -/
def FirstMeeting (t : ℚ) (cums : List ℚ) (i : ℕ) : Prop :=
  i < cums.length ∧ t ≤ cums.getD i 0 ∧ ∀ j < i, ¬ t ≤ cums.getD j 0

theorem argmaxFrom_true (xs : List Bool) : ∀ b i, argmaxFrom true b i xs = b := by
  induction xs with
  | nil => intro b i; rfl
  | cons x xs ih =>
    intro b i
    show (if true < x then _ else _) = b
    rw [if_neg (by simp [Bool.lt_iff])]
    exact ih b (i + 1)

theorem argmaxFrom_false_all (xs : List Bool) (hall : ∀ x ∈ xs, x = false) :
    ∀ b i, argmaxFrom false b i xs = b := by
  induction xs with
  | nil => intro b i; rfl
  | cons x xs ih =>
    intro b i
    have hx : x = false := hall x (List.mem_cons_self x xs)
    show (if false < x then _ else _) = b
    rw [hx, if_neg (by simp [Bool.lt_iff])]
    exact ih (fun z hz => hall z (List.mem_cons_of_mem x hz)) b (i + 1)

theorem argmaxFrom_false_first (xs : List Bool) :
    ∀ (p : ℕ), xs.getD p false = true → (∀ j < p, xs.getD j false = false) →
    ∀ b i, argmaxFrom false b i xs = i + p := by
  induction xs with
  | nil =>
    intro p hp
    simp [List.getD] at hp
  | cons x xs ih =>
    intro p hp hbefore b i
    cases p with
    | zero =>
      have hx : x = true := hp
      show (if false < x then _ else _) = i + 0
      rw [hx, if_pos (by simp [Bool.lt_iff])]
      rw [argmaxFrom_true]
      omega
    | succ q =>
      have hx : x = false := hbefore 0 (Nat.succ_pos q)
      show (if false < x then _ else _) = i + (q + 1)
      rw [hx, if_neg (by simp)]
      have hq : xs.getD q false = true := hp
      have hb : ∀ j < q, xs.getD j false = false := fun j hj =>
        hbefore (j + 1) (Nat.succ_lt_succ hj)
      rw [ih q hq hb b (i + 1)]
      omega

theorem argmaxIdx_first_true (bs : List Bool) (p : ℕ)
    (hp : bs.getD p false = true) (hbefore : ∀ j < p, bs.getD j false = false) :
    argmaxIdx bs = p := by
  cases bs with
  | nil => simp [List.getD] at hp
  | cons x xs =>
    cases p with
    | zero =>
      have hx : x = true := hp
      show argmaxFrom x 0 1 xs = 0
      rw [hx, argmaxFrom_true]
    | succ q =>
      have hx : x = false := hbefore 0 (Nat.succ_pos q)
      show argmaxFrom x 0 1 xs = q + 1
      rw [hx, argmaxFrom_false_first xs q hp
        (fun j hj => hbefore (j + 1) (Nat.succ_lt_succ hj)) 0 1]
      omega

theorem argmaxIdx_all_false (bs : List Bool) (hall : ∀ b ∈ bs, b = false) :
    argmaxIdx bs = 0 := by
  cases bs with
  | nil => rfl
  | cons x xs =>
    have hx : x = false := hall x (List.mem_cons_self x xs)
    show argmaxFrom x 0 1 xs = 0
    rw [hx, argmaxFrom_false_all xs (fun z hz => hall z (List.mem_cons_of_mem x hz))]

theorem getD_map_decide (t : ℚ) (l : List ℚ) :
    ∀ i, i < l.length →
      (l.map (fun c => decide (t ≤ c))).getD i false = decide (t ≤ l.getD i 0) := by
  induction l with
  | nil => intro i hi; simp at hi
  | cons x xs ih =>
    intro i hi
    cases i with
    | zero => rfl
    | succ j =>
      have hj : j < xs.length := by simpa using hi
      exact ih j hj

/-- Claim C1 (amended): when both an explicit component count and a
variance threshold are configured, PCA.fit resolves the kept component
count from the THRESHOLD, ignoring the explicit count — the code's
priority is threshold first, then explicit count (capped to
n_features), then all features; the threshold resolves to the smallest
count whose cumulative explained-variance ratio meets it, and to 1 when
no cumulative ratio does. -/
theorem pca_threshold_has_priority (k nf : ℕ) (t : ℚ) (eigs : List ℚ) :
    pcaFitCount (some k) (some t) nf eigs = pcaFitCount none (some t) nf eigs
    ∧ (∀ i, FirstMeeting t (cumsum (pcaRatios nf eigs)) i →
        pcaFitCount (some k) (some t) nf eigs = i + 1)
    ∧ ((∀ c ∈ cumsum (pcaRatios nf eigs), ¬ t ≤ c) →
        pcaFitCount (some k) (some t) nf eigs = 1) := by
  refine ⟨rfl, ?_, ?_⟩
  · rintro i ⟨hi, hmeet, hbefore⟩
    show max 1 (argmaxIdx _ + 1) = i + 1
    have hb : ((cumsum (pcaRatios nf eigs)).map (fun c => decide (t ≤ c))).getD i false
        = true := by
      rw [getD_map_decide t _ i hi]
      exact decide_eq_true hmeet
    have hbf : ∀ j < i,
        ((cumsum (pcaRatios nf eigs)).map (fun c => decide (t ≤ c))).getD j false
          = false := by
      intro j hj
      rw [getD_map_decide t _ j (lt_trans hj hi)]
      exact decide_eq_false (hbefore j hj)
    rw [argmaxIdx_first_true _ i hb hbf]
    omega
  · intro hall
    show max 1 (argmaxIdx _ + 1) = 1
    have hfalse : ∀ b ∈ (cumsum (pcaRatios nf eigs)).map (fun c => decide (t ≤ c)),
        b = false := by
      intro b hb
      rcases List.mem_map.mp hb with ⟨c, hc, rfl⟩
      exact decide_eq_false (hall c hc)
    rw [argmaxIdx_all_false _ hfalse]
    omega

/-- Witness for pca_threshold_has_priority: eigenvalues [3, 1] with
n_features = 2, explicit count 2, threshold 1/2; the cumulative ratios
are [3/4, 1], the first meets 1/2, so 1 component is kept. -/
theorem pca_threshold_has_priority_witness :
    pcaFitCount (some 2) (some (1 / 2)) 2 [3, 1] = 0 + 1 := by
  refine (pca_threshold_has_priority 2 2 (1 / 2) [3, 1]).2.1 0 ⟨?_, ?_, ?_⟩
  · norm_num [pcaRatios, sortDesc, insertDescQ, eps10, cumsum, cumsumFrom]
  · norm_num [pcaRatios, sortDesc, insertDescQ, eps10, cumsum, cumsumFrom]
  · intro j hj
    omega

/-- Four 2-feature samples whose centered covariance matrix is
diagonal([8/3, 2/3]), used to refute claim C1. -/
def c1X : List (List ℚ) := [[0, 0], [4, 0], [2, 1], [2, -1]]

/-- Claim C1 counterexample: PCA(n_components=2, variance_threshold=1/2,
standardize=False) fitted on c1X.  The covariance matrix of the
centered data has eigenvalues 8/3 and 2/3 (certified below by explicit
eigenvectors), the cumulative explained-variance ratios are [4/5, 1],
so the threshold branch — which the code consults first — keeps 1
component, while the claim demands the explicit count min(2, 2) = 2. -/
theorem pca_claim_explicit_count_does_not_win :
    npCov 2 (centerX 2 c1X) = [[8 / 3, 0], [0, 2 / 3]]
    ∧ IsEigenvalueOf [[8 / 3, 0], [0, 2 / 3]] (8 / 3)
    ∧ IsEigenvalueOf [[8 / 3, 0], [0, 2 / 3]] (2 / 3)
    ∧ pcaFitCount (some 2) (some (1 / 2)) 2 [8 / 3, 2 / 3] = 1
    ∧ min 2 2 = 2 ∧ (1 : ℕ) ≠ 2 := by
  refine ⟨?_, ⟨[1, 0], by norm_num, by norm_num [List.replicate], ?_⟩,
    ⟨[0, 1], by norm_num, by norm_num [List.replicate], ?_⟩, ?_, by norm_num, by norm_num⟩
  · norm_num [npCov, centerX, colVals, colMeans, meanQ, c1X, List.range_succ]
  · norm_num [mulVecQ]
  · norm_num [mulVecQ]
  · norm_num [pcaFitCount, pcaResolveCount, pcaRatios, sortDesc, insertDescQ,
      eps10, cumsum, cumsumFrom, argmaxIdx, argmaxFrom]

/-- Error outcomes of a predict/transform call: the explicit ValueError
guard ("Model not fitted yet") that realises the spec's NotFitted, or
the Python TypeError raised when the code performs arithmetic on a
still-None field without having checked the fitted state. -/
inductive PyErr where
  | notFitted : PyErr
  | typeErr : PyErr
deriving DecidableEq, Repr

/-- Dot product of two rational vectors. -/
def dotQ (a b : List ℚ) : ℚ := ((a.zip b).map (fun p => p.1 * p.2)).sum

/-- Componentwise standardisation (x - mean) / std of one row against
per-feature statistics (stds already guarded by fit). -/
def scaleRow : List ℚ → List ℚ → List ℚ → List ℚ
  | x :: xs, m :: ms, s :: ss => (x - m) / s :: scaleRow xs ms ss
  | _, _, _ => []

/-- Manhattan distance, Σ |a - b| (utils/distances.py). -/
def manhattanDist (a b : List ℚ) : ℚ := ((a.zip b).map (fun p => |p.1 - p.2|)).sum

/-- Squared Euclidean distance Σ (a - b)^2: the square of the library's
euclidean_distance (sqrt of this sum).  Used directly where the code
squares the distance (inertia), and as the assignment key where only
the ordering matters (squaring is strictly monotone on nonnegatives, so
argmin/argsort under it coincide with those under the true distance). -/
def sqEuclidDist (a b : List ℚ) : ℚ := ((a.zip b).map (fun p => (p.1 - p.2) ^ 2)).sum

/-- First index of the running minimum (np.argmin keeps the first
occurrence, so the best is replaced only on a strict decrease). -/
def argminFrom {α : Type} [LinearOrder α] (best : α) (bestIdx i : ℕ) : List α → ℕ
  | [] => bestIdx
  | x :: xs => if x < best then argminFrom x i (i + 1) xs else argminFrom best bestIdx (i + 1) xs

/-- Model of np.argmin: index of the first occurrence of the minimum. -/
def argminIdx {α : Type} [LinearOrder α] : List α → ℕ
  | [] => 0
  | x :: xs => argminFrom x 0 1 xs

/-- Fields of a LinearRegression instance inspected by predict
(regression.py): each fitted parameter starts as None. -/
structure LinRegState where
  weights : Option (List ℚ)
  X_mean : Option (List ℚ)
  X_std : Option (List ℚ)
  y_mean : Option ℚ
  y_std : Option ℚ
  is_fitted : Bool

/-- State of a freshly constructed LinearRegression. -/
def linRegInit : LinRegState := ⟨none, none, none, none, none, false⟩

/-- Model of LinearRegression.predict (regression.py lines 168-192):
the fitted-state guard raises ValueError("Model not fitted yet"); the
fitted path standardises with the stored statistics, prepends the
intercept column, applies the weights, maps back to the original scale,
and clips to [-1e10, 1e10] (the nan_to_num step is the identity in
exact arithmetic). -/
def linRegPredict (st : LinRegState) (X : List (List ℚ)) : Except PyErr (List ℚ) :=
  if st.is_fitted = false ∨ st.weights = none then Except.error PyErr.notFitted
  else
    match st.weights, st.X_mean, st.X_std, st.y_mean, st.y_std with
    | some w, some m, some s, some ym, some ys =>
      Except.ok (X.map (fun r =>
        let pred := dotQ (1 :: scaleRow r m s) w * ys + ym
        max (-(10 ^ 10)) (min (10 ^ 10) pred)))
    | _, _, _, _, _ => Except.error PyErr.typeErr

/-- Fields of a PolynomialRegression instance inspected by predict. -/
structure PolyRegState where
  linear_model : LinRegState
  is_fitted : Bool

/-- State of a freshly constructed PolynomialRegression (it owns a
fresh LinearRegression). -/
def polyRegInit : PolyRegState := ⟨linRegInit, false⟩

/-- Model of PolynomialRegression.predict (regression.py lines
275-305): guard, then expand features and delegate to the inner
LinearRegression.  The polynomial feature map of §4.2 is passed in as
expand; the claims settled here concern only the guard and delegation,
which never inspect it. -/
def polyRegPredict (expand : List (List ℚ) → List (List ℚ))
    (st : PolyRegState) (X : List (List ℚ)) : Except PyErr (List ℚ) :=
  if st.is_fitted = false then Except.error PyErr.notFitted
  else linRegPredict st.linear_model (expand X)

/-- Fields of a LogisticRegression instance inspected by predict. -/
structure LogisticState where
  weights : Option (List ℚ)
  X_mean : Option (List ℚ)
  X_std : Option (List ℚ)

/-- State of a freshly constructed LogisticRegression. -/
def logisticInit : LogisticState := ⟨none, none, none⟩

/-- Model of LogisticRegression.predict_proba (classification.py lines
72-88): there is NO fitted-state guard; the intercept column is
prepended, scaling is applied only when both statistics are present,
and X @ self.weights with weights = None raises TypeError.  The stable
sigmoid (transcendental) is passed in as sigmoidFn; probabilities are
clipped to [0, 1]. -/
def logisticPredictProba (sigmoidFn : ℚ → ℚ) (st : LogisticState)
    (X : List (List ℚ)) : Except PyErr (List ℚ) :=
  let rows := X.map (fun r =>
    1 :: (match st.X_mean, st.X_std with
          | some m, some s => scaleRow r m s
          | _, _ => r))
  match st.weights with
  | none => Except.error PyErr.typeErr
  | some w => Except.ok (rows.map (fun xr => max 0 (min 1 (sigmoidFn (dotQ xr w)))))

/-- Model of LogisticRegression.predict (classification.py lines
90-94): thresholded probabilities. -/
def logisticPredict (sigmoidFn : ℚ → ℚ) (st : LogisticState)
    (X : List (List ℚ)) (threshold : ℚ) : Except PyErr (List ℤ) :=
  (logisticPredictProba sigmoidFn st X).map
    (fun ps => ps.map (fun p => if threshold ≤ p then (1 : ℤ) else 0))

/-- Fields of a GaussianNaiveBayes instance inspected by predict. -/
structure GNBState where
  classes_ : Option (List ℚ)
  class_prior_ : Option (List ℚ)
  theta_ : Option (List (List ℚ))
  var_ : Option (List (List ℚ))
  is_fitted : Bool

/-- State of a freshly constructed GaussianNaiveBayes. -/
def gnbInit : GNBState := ⟨none, none, none, none, false⟩

/-- Per-class log likelihood of one sample row (classification.py lines
296-308): log(prior) - 0.5 Σ log(2 pi var) - 0.5 Σ (x - mean)^2 / var.
The transcendental log and pi are passed in as logFn and piQ. -/
def gnbLogLik (logFn : ℚ → ℚ) (piQ : ℚ) (prior : ℚ) (mean var r : List ℚ) : ℚ :=
  logFn prior - 1 / 2 * ((var.map (fun v => logFn (2 * piQ * v))).sum)
    - 1 / 2 * (((r.zip (mean.zip var)).map
        (fun p => (p.1 - p.2.1) ^ 2 / p.2.2)).sum)

/-- Model of GaussianNaiveBayes.predict (classification.py lines
312-333): fitted-state guard, then the class with the first-maximal log
likelihood per row (np.argmax keeps the first maximum). -/
def gnbPredict (logFn : ℚ → ℚ) (piQ : ℚ) (st : GNBState)
    (X : List (List ℚ)) : Except PyErr (List ℚ) :=
  if st.is_fitted = false then Except.error PyErr.notFitted
  else
    match st.classes_, st.class_prior_, st.theta_, st.var_ with
    | some cls, some priors, some thetas, some vars =>
      Except.ok (X.map (fun r =>
        let lls := (cls.zip ((priors.zip (thetas.zip vars)))).map
          (fun c => gnbLogLik logFn piQ c.2.1 c.2.2.1 c.2.2.2 r)
        cls.getD (argmaxIdx lls) 0))
    | _, _, _, _ => Except.error PyErr.typeErr

/-- Ascending insertion of a (distance, index) pair under the
lexicographic order (value first, original index on ties). -/
def insertPairAsc (p : ℚ × ℕ) : List (ℚ × ℕ) → List (ℚ × ℕ)
  | [] => [p]
  | q :: qs =>
    if p.1 < q.1 ∨ (p.1 = q.1 ∧ p.2 < q.2) then p :: q :: qs
    else q :: insertPairAsc p qs

/-- Insertion sort of (distance, index) pairs. -/
def sortPairsAsc : List (ℚ × ℕ) → List (ℚ × ℕ)
  | [] => []
  | p :: ps => insertPairAsc p (sortPairsAsc ps)

/-- Enumeration of a vector as (value, index) pairs starting at i. -/
def enumFrom (i : ℕ) : List ℚ → List (ℚ × ℕ)
  | [] => []
  | x :: xs => (x, i) :: enumFrom (i + 1) xs

/-- Model of np.argsort on a distance vector: indices ordered by
distance, ties broken by original index (the stable order the spec
states in §4.6 and numpy's deterministic behaviour on the inputs
analysed here). -/
def argsortQ (ds : List ℚ) : List ℕ :=
  (sortPairsAsc (enumFrom 0 ds)).map (fun p => p.2)

/-- Ascending insertion for label values. -/
def insertAscQ (x : ℚ) : List ℚ → List ℚ
  | [] => [x]
  | y :: ys => if x < y then x :: y :: ys else y :: insertAscQ x ys

/-- Ascending insertion sort for label values. -/
def sortAscQ : List ℚ → List ℚ
  | [] => []
  | x :: xs => insertAscQ x (sortAscQ xs)

/-- Model of np.unique: the sorted list of distinct values. -/
def uniqueSorted (l : List ℚ) : List ℚ := sortAscQ l.dedup

/-- Majority label: np.unique with counts, then unique[np.argmax(counts)]
(first maximum, hence the lowest-valued label among tied top counts). -/
def majorityVote (labels : List ℚ) : ℚ :=
  let u := uniqueSorted labels
  u.getD (argmaxIdx (u.map (fun v => labels.count v))) 0

/-- Fields of a KNNRegressor instance inspected by predict
(models/knn.py lines 17-33): everything fitted starts as None. -/
structure KNNRegState where
  k : ℕ
  X_train : Option (List (List ℚ))
  y_train : Option (List ℚ)
  X_mean : Option (List ℚ)
  X_std : Option (List ℚ)

/-- State of a freshly constructed KNNRegressor. -/
def knnRegInit (k : ℕ) : KNNRegState := ⟨k, none, none, none, none⟩

/-- Model of KNNRegressor.predict (models/knn.py lines 55-88): there is
NO fitted-state guard; (X - self.X_mean) with X_mean = None raises
TypeError.  The fitted path scales the queries with the stored
statistics, sorts training distances under the configured metric, takes
the first k indices, and averages their targets. -/
def knnRegPredict (dist : List ℚ → List ℚ → ℚ) (st : KNNRegState)
    (X : List (List ℚ)) : Except PyErr (List ℚ) :=
  match st.X_mean, st.X_std, st.X_train, st.y_train with
  | some m, some s, some Xt, some yt =>
    Except.ok ((X.map (fun r => scaleRow r m s)).map (fun x =>
      let ds := Xt.map (fun xtr => dist x xtr)
      meanQ (((argsortQ ds).take st.k).map (fun i => yt.getD i 0))))
  | _, _, _, _ => Except.error PyErr.typeErr

/-- Fields of a KNNClassifier instance inspected by predict
(models/knn.py lines 94-111). -/
structure KNNClfState where
  k : ℕ
  X_train : Option (List (List ℚ))
  y_train : Option (List ℚ)
  X_mean : Option (List ℚ)
  X_std : Option (List ℚ)
  classes : Option (List ℚ)

/-- State of a freshly constructed KNNClassifier. -/
def knnClfInit (k : ℕ) : KNNClfState := ⟨k, none, none, none, none, none⟩

/-- Model of KNNClassifier.fit (models/knn.py lines 113-134): stores
the scaled training matrix, the targets, the classes and the scaling
statistics.  np.std's square root is irrational in general, so the raw
per-feature standard deviations are supplied as stds (the zero-variance
guard is applied to them here, exactly as in the code); theorems that
depend on their numeric value certify stds against varQ. -/
def knnClfFit (X : List (List ℚ)) (y : List ℚ) (stds : List ℚ)
    (k : ℕ) : KNNClfState :=
  let d := (X.headD []).length
  let m := colMeans d X
  let s := stds.map guardStd
  { k := k
    X_train := some (X.map (fun r => scaleRow r m s))
    y_train := some y
    X_mean := some m
    X_std := some s
    classes := some (uniqueSorted y) }

/-- Model of KNNClassifier.predict (models/knn.py lines 136-170): same
missing guard as the regressor; the fitted path takes the k nearest
stored rows and returns the majority label. -/
def knnClfPredict (dist : List ℚ → List ℚ → ℚ) (st : KNNClfState)
    (X : List (List ℚ)) : Except PyErr (List ℚ) :=
  match st.X_mean, st.X_std, st.X_train, st.y_train with
  | some m, some s, some Xt, some yt =>
    Except.ok ((X.map (fun r => scaleRow r m s)).map (fun x =>
      let ds := Xt.map (fun xtr => dist x xtr)
      majorityVote (((argsortQ ds).take st.k).map (fun i => yt.getD i 0))))
  | _, _, _, _ => Except.error PyErr.typeErr

/-- Fields of a KMeans instance inspected by predict
(models/clustering.py lines 13-33). -/
structure KMeansState where
  n_clusters : ℕ
  centroids : Option (List (List ℚ))
  labels : Option (List ℕ)
  X_mean : Option (List ℚ)
  X_std : Option (List ℚ)

/-- State of a freshly constructed KMeans. -/
def kmeansInit (k : ℕ) : KMeansState := ⟨k, none, none, none, none⟩

/-- Model of KMeans.predict (clustering.py lines 94-111): there is NO
fitted-state guard; (X - self.X_mean) with X_mean = None raises
TypeError.  The fitted path assigns each scaled query to the
first-minimal centroid under the configured metric. -/
def kmeansPredict (dist : List ℚ → List ℚ → ℚ) (st : KMeansState)
    (X : List (List ℚ)) : Except PyErr (List ℕ) :=
  match st.X_mean, st.X_std, st.centroids with
  | some m, some s, some cs =>
    Except.ok ((X.map (fun r => scaleRow r m s)).map (fun x =>
      argminIdx (cs.map (fun c => dist x c))))
  | _, _, _ => Except.error PyErr.typeErr

/-- Fields of a PCA instance inspected by transform
(models/decomposition.py lines 9-29).  components_ is kept as the list
of selected eigenvector columns; projecting a row dots it with each. -/
structure PCAState where
  standardize : Bool
  mean_ : Option (List ℚ)
  std_ : Option (List ℚ)
  components_ : Option (List (List ℚ))
  is_fitted : Bool

/-- State of a freshly constructed PCA. -/
def pcaInit (standardize : Bool) : PCAState := ⟨standardize, none, none, none, false⟩

/-- Model of PCA.transform (decomposition.py lines 105-133):
fitted-state guard raising ValueError("PCA not fitted yet"), then
centering/standardising with the stored statistics and projecting onto
the stored components. -/
def pcaTransform (st : PCAState) (X : List (List ℚ)) :
    Except PyErr (List (List ℚ)) :=
  if st.is_fitted = false then Except.error PyErr.notFitted
  else
    match st.mean_, st.std_, st.components_ with
    | some m, some s, some comps =>
      Except.ok (X.map (fun r =>
        let c := if st.standardize then scaleRow r m s
                 else (r.zip m).map (fun p => p.1 - p.2)
        comps.map (fun comp => dotQ c comp)))
    | _, _, _ => Except.error PyErr.typeErr

/-- Claim C3 counterexample: a freshly constructed KNNRegressor (k = 5,
euclidean metric) asked to predict on [[1]] fails with the TypeError
arising from (X - None) — models/knn.py line 64 — and not with the
NotFitted ValueError the claim demands for every model. -/
theorem knn_unfit_predict_raises_type_error :
    knnRegPredict sqEuclidDist (knnRegInit 5) [[1]] = Except.error PyErr.typeErr
    ∧ PyErr.typeErr ≠ PyErr.notFitted := by
  exact ⟨rfl, by decide⟩

/-- Claim C3 (amended): on a freshly constructed (Unfit) instance, for
every input, predict/transform fails with NotFitted (the explicit
ValueError guard) for LinearRegression, PolynomialRegression,
GaussianNaiveBayes and PCA — but LogisticRegression, KNNRegressor,
KNNClassifier and KMeans perform no fitted-state check and instead fail
with a TypeError from arithmetic on their still-None parameters. -/
theorem unfit_predict_error_taxonomy (X : List (List ℚ))
    (dist : List ℚ → List ℚ → ℚ) (sigmoidFn logFn : ℚ → ℚ) (piQ thr : ℚ)
    (expand : List (List ℚ) → List (List ℚ)) (k kc km : ℕ) (std : Bool) :
    linRegPredict linRegInit X = Except.error PyErr.notFitted
    ∧ polyRegPredict expand polyRegInit X = Except.error PyErr.notFitted
    ∧ gnbPredict logFn piQ gnbInit X = Except.error PyErr.notFitted
    ∧ pcaTransform (pcaInit std) X = Except.error PyErr.notFitted
    ∧ logisticPredict sigmoidFn logisticInit X thr = Except.error PyErr.typeErr
    ∧ knnRegPredict dist (knnRegInit k) X = Except.error PyErr.typeErr
    ∧ knnClfPredict dist (knnClfInit kc) X = Except.error PyErr.typeErr
    ∧ kmeansPredict dist (kmeansInit km) X = Except.error PyErr.typeErr := by
  exact ⟨rfl, rfl, rfl, rfl, rfl, rfl, rfl, rfl⟩

/-- Strict lexicographic order on (distance, index) pairs: the
condition under which insertPairAsc places its pair in front. -/
def LLt (p q : ℚ × ℕ) : Prop := p.1 < q.1 ∨ (p.1 = q.1 ∧ p.2 < q.2)

theorem LLt_irrefl (p : ℚ × ℕ) : ¬ LLt p p := by
  rintro (h | ⟨-, h⟩) <;> exact lt_irrefl _ h

theorem LLt_trans {p q r : ℚ × ℕ} (h1 : LLt p q) (h2 : LLt q r) : LLt p r := by
  rcases h1 with h1 | ⟨e1, h1⟩ <;> rcases h2 with h2 | ⟨e2, h2⟩
  · exact Or.inl (lt_trans h1 h2)
  · exact Or.inl (e2 ▸ h1)
  · exact Or.inl (e1 ▸ h2)
  · exact Or.inr ⟨e1.trans e2, lt_trans h1 h2⟩

theorem LLt_of_not (p q : ℚ × ℕ) (h : ¬ LLt q p) : p = q ∨ LLt p q := by
  unfold LLt at h
  push_neg at h
  rcases eq_or_lt_of_le h.1 with heq | hlt
  · rcases eq_or_lt_of_le (h.2 heq.symm) with hieq | hilt
    · exact Or.inl (Prod.ext heq hieq)
    · exact Or.inr (Or.inr ⟨heq, hilt⟩)
  · exact Or.inr (Or.inl hlt)

theorem mem_insertPairAsc (p q : ℚ × ℕ) :
    ∀ l, (q ∈ insertPairAsc p l ↔ q = p ∨ q ∈ l) := by
  intro l
  induction l with
  | nil => simp [insertPairAsc]
  | cons x xs ih =>
    show q ∈ (if _ then _ else _) ↔ _
    split_ifs with hc
    · simp [List.mem_cons]
    · simp only [List.mem_cons, ih]
      tauto

theorem mem_sortPairsAsc (q : ℚ × ℕ) :
    ∀ l, (q ∈ sortPairsAsc l ↔ q ∈ l) := by
  intro l
  induction l with
  | nil => simp [sortPairsAsc]
  | cons x xs ih =>
    show q ∈ insertPairAsc x (sortPairsAsc xs) ↔ _
    rw [mem_insertPairAsc, ih]
    simp [List.mem_cons]

theorem sortPairsAsc_head_min :
    ∀ (l : List (ℚ × ℕ)) (h : ℚ × ℕ) (t : List (ℚ × ℕ)),
      sortPairsAsc l = h :: t → h ∈ l ∧ ∀ q ∈ l, ¬ LLt q h := by
  intro l
  induction l with
  | nil => intro h t he; exact absurd he (by simp [sortPairsAsc])
  | cons p ps ih =>
    intro h t he
    rcases hS : sortPairsAsc ps with _ | ⟨h0, t0⟩
    · have hins : sortPairsAsc (p :: ps) = [p] := by
        show insertPairAsc p (sortPairsAsc ps) = [p]
        rw [hS]; rfl
      rw [hins, List.cons.injEq] at he
      obtain ⟨rfl, -⟩ := he
      refine ⟨List.mem_cons_self p ps, ?_⟩
      intro q hq0
      rcases List.mem_cons.mp hq0 with rfl | hq
      · exact LLt_irrefl q
      · have hmem : q ∈ sortPairsAsc ps := (mem_sortPairsAsc q ps).mpr hq
        rw [hS] at hmem
        exact absurd hmem (List.not_mem_nil q)
    · obtain ⟨hmem0, hmin0⟩ := ih h0 t0 hS
      have hins : sortPairsAsc (p :: ps) = insertPairAsc p (h0 :: t0) := by
        show insertPairAsc p (sortPairsAsc ps) = _
        rw [hS]
      by_cases hc : p.1 < h0.1 ∨ (p.1 = h0.1 ∧ p.2 < h0.2)
      · have hstep : insertPairAsc p (h0 :: t0) = p :: h0 :: t0 := by
          show (if _ then _ else _) = _
          rw [if_pos hc]
        rw [hins, hstep, List.cons.injEq] at he
        obtain ⟨rfl, -⟩ := he
        refine ⟨List.mem_cons_self p ps, ?_⟩
        intro q hq0
        rcases List.mem_cons.mp hq0 with rfl | hq
        · exact LLt_irrefl q
        · intro hqh
          exact hmin0 q hq (LLt_trans hqh hc)
      · have hstep : insertPairAsc p (h0 :: t0) = h0 :: insertPairAsc p t0 := by
          show (if _ then _ else _) = _
          rw [if_neg hc]
        rw [hins, hstep, List.cons.injEq] at he
        obtain ⟨rfl, -⟩ := he
        refine ⟨List.mem_cons_of_mem p hmem0, ?_⟩
        intro q hq0
        rcases List.mem_cons.mp hq0 with rfl | hq
        · exact hc
        · exact hmin0 q hq

theorem mem_enumFrom (q : ℚ × ℕ) :
    ∀ (l : List ℚ) (i : ℕ), q ∈ enumFrom i l →
      i ≤ q.2 ∧ q.2 - i < l.length ∧ q.1 = l.getD (q.2 - i) 0 := by
  intro l
  induction l with
  | nil => intro i hq; exact absurd hq (List.not_mem_nil q)
  | cons x xs ih =>
    intro i hq
    rcases List.mem_cons.mp hq with hq | hq
    · rw [hq]
      simp [List.getD]
    · obtain ⟨h1, h2, h3⟩ := ih (i + 1) hq
      refine ⟨by omega, by simp; omega, ?_⟩
      have : q.2 - i = (q.2 - (i + 1)) + 1 := by omega
      rw [this]
      simpa using h3

theorem enumFrom_getD_mem :
    ∀ (l : List ℚ) (i j : ℕ), j < l.length → (l.getD j 0, i + j) ∈ enumFrom i l := by
  intro l
  induction l with
  | nil => intro i j hj; simp at hj
  | cons x xs ih =>
    intro i j hj
    cases j with
    | zero => simp [enumFrom, List.getD]
    | succ j0 =>
      have : (xs.getD j0 0, (i + 1) + j0) ∈ enumFrom (i + 1) xs :=
        ih (i + 1) j0 (by simpa using hj)
      refine List.mem_cons_of_mem _ ?_
      have harith : (i + 1) + j0 = i + (j0 + 1) := by omega
      rw [harith] at this
      exact this

theorem enumFrom_length : ∀ (l : List ℚ) (i : ℕ), (enumFrom i l).length = l.length := by
  intro l
  induction l with
  | nil => intro i; rfl
  | cons x xs ih => intro i; simp [enumFrom, ih]

/-- Head of np.argsort when the vector has a unique zero entry among
nonnegative entries: the first neighbour index is that entry's index. -/
theorem argsortQ_head_unique_zero (ds : List ℚ) (i : ℕ)
    (hi : i < ds.length) (hzero : ds.getD i 0 = 0)
    (hpos : ∀ j < ds.length, j ≠ i → 0 < ds.getD j 0) :
    ∃ t, argsortQ ds = i :: t := by
  rcases hS : sortPairsAsc (enumFrom 0 ds) with _ | ⟨h, t⟩
  · have hnil : enumFrom 0 ds = [] := by
      cases hE : enumFrom 0 ds with
      | nil => rfl
      | cons p ps =>
        have hmem : p ∈ sortPairsAsc (enumFrom 0 ds) := by
          rw [hE] at hS ⊢
          exact (mem_sortPairsAsc p _).mpr (List.mem_cons_self p ps)
        rw [hS] at hmem
        exact absurd hmem (List.not_mem_nil p)
    have hlen := enumFrom_length ds 0
    rw [hnil] at hlen
    simp at hlen
    omega
  · obtain ⟨hmem, hmin⟩ := sortPairsAsc_head_min _ h t hS
    obtain ⟨-, hlt, hval⟩ := mem_enumFrom h ds 0 hmem
    simp only [Nat.sub_zero] at hlt hval
    have hh2 : h.2 = i := by
      by_contra hne
      have hposh : 0 < h.1 := hval ▸ hpos h.2 hlt hne
      have hzmem : ((0 : ℚ), i) ∈ enumFrom 0 ds := by
        have hm := enumFrom_getD_mem ds 0 i hi
        rw [hzero] at hm
        simpa using hm
      exact hmin (0, i) hzmem (Or.inl hposh)
    refine ⟨t.map (fun p => p.2), ?_⟩
    unfold argsortQ
    rw [hS, List.map_cons, hh2]

theorem guardStd_pos (s : ℚ) : 0 < guardStd s := by
  unfold guardStd
  split_ifs with h
  · norm_num
  · have : (0 : ℚ) < eps10 := by norm_num [eps10]
    linarith [not_lt.mp h]

theorem scaleRow_length : ∀ (r m s : List ℚ),
    r.length ≤ m.length → r.length ≤ s.length → (scaleRow r m s).length = r.length := by
  intro r
  induction r with
  | nil => intro m s _ _; cases m <;> cases s <;> rfl
  | cons x xs ih =>
    intro m s hm hs
    cases m with
    | nil => simp at hm
    | cons m0 ms =>
      cases s with
      | nil => simp at hs
      | cons s0 ss =>
        show (scaleRow (x :: xs) (m0 :: ms) (s0 :: ss)).length = xs.length + 1
        have := ih ms ss (by simpa using hm) (by simpa using hs)
        simp [scaleRow, this]

theorem scaleRow_inj : ∀ (r r' m s : List ℚ),
    r.length = r'.length → r.length ≤ m.length → r.length ≤ s.length →
    (∀ x ∈ s, 0 < x) → scaleRow r m s = scaleRow r' m s → r = r' := by
  intro r
  induction r with
  | nil =>
    intro r' m s hlen _ _ _ _
    cases r' with
    | nil => rfl
    | cons _ _ => simp at hlen
  | cons x xs ih =>
    intro r' m s hlen hm hs hpos heq
    cases r' with
    | nil => simp at hlen
    | cons x' xs' =>
      cases m with
      | nil => simp at hm
      | cons m0 ms =>
        cases s with
        | nil => simp at hs
        | cons s0 ss =>
          have hs0 : s0 ≠ 0 := ne_of_gt (hpos s0 (List.mem_cons_self s0 ss))
          have hheads : (x - m0) / s0 = (x' - m0) / s0 := by
            injection heq
          have hx : x = x' := by
            have hmul := congrArg (fun z => z * s0) hheads
            simp only [div_mul_cancel₀ _ hs0] at hmul
            linarith
          have htails : scaleRow xs ms ss = scaleRow xs' ms ss := by
            injection heq
          have hxs : xs = xs' := ih xs' ms ss (by simpa using hlen)
            (by simpa using hm) (by simpa using hs)
            (fun z hz => hpos z (List.mem_cons_of_mem s0 hz)) htails
          rw [hx, hxs]

theorem sqEuclidDist_self : ∀ (a : List ℚ), sqEuclidDist a a = 0 := by
  intro a
  induction a with
  | nil => rfl
  | cons x xs ih => simp [sqEuclidDist] at ih ⊢; simpa using ih

theorem sqEuclidDist_nonneg : ∀ (a b : List ℚ), 0 ≤ sqEuclidDist a b := by
  intro a
  induction a with
  | nil => intro b; rcases b with _ | ⟨y, ys⟩ <;> norm_num [sqEuclidDist]
  | cons x xs ih =>
    intro b
    rcases b with _ | ⟨y, ys⟩
    · norm_num [sqEuclidDist]
    · have h1 : (0 : ℚ) ≤ (x - y) ^ 2 := sq_nonneg _
      have h2 := ih ys
      simp only [sqEuclidDist, List.zip_cons_cons, List.map_cons, List.sum_cons] at h2 ⊢
      linarith

theorem sqEuclidDist_pos : ∀ (a b : List ℚ), a.length = b.length → a ≠ b →
    0 < sqEuclidDist a b := by
  intro a
  induction a with
  | nil =>
    intro b hlen hne
    cases b with
    | nil => exact absurd rfl hne
    | cons _ _ => simp at hlen
  | cons x xs ih =>
    intro b hlen hne
    cases b with
    | nil => simp at hlen
    | cons y ys =>
      have hrest : (0 : ℚ) ≤ sqEuclidDist xs ys := sqEuclidDist_nonneg xs ys
      simp only [sqEuclidDist] at hrest
      simp only [sqEuclidDist, List.zip_cons_cons, List.map_cons, List.sum_cons]
      by_cases hxy : x = y
      · have hxs : xs ≠ ys := fun hcon => hne (by rw [hxy, hcon])
        have hpos := ih ys (by simpa using hlen) hxs
        simp only [sqEuclidDist] at hpos
        have : ((x : ℚ) - y) ^ 2 = 0 := by rw [hxy]; ring
        linarith
      · have hne0 : (x : ℚ) - y ≠ 0 := sub_ne_zero.mpr hxy
        have hsq : (0 : ℚ) < (x - y) ^ 2 := pow_two_pos_of_ne_zero hne0
        linarith

theorem colMeans_length (d : ℕ) (X : List (List ℚ)) : (colMeans d X).length = d := by
  simp [colMeans]

theorem majorityVote_singleton (v : ℚ) : majorityVote [v] = v := by
  have hd : ([v] : List ℚ).dedup = [v] := by simp
  simp [majorityVote, uniqueSorted, hd, sortAscQ, insertAscQ, argmaxIdx, argmaxFrom]

/-- Claim C8 (amended): a KNNClassifier with k = 1 and the (default)
euclidean metric, fitted on a training set whose rows are pairwise
distinct, predicts on the training matrix exactly each row's own label.
(With duplicated rows the claim fails: see the counterexample, where a
duplicate carrying a different label is the equally-near first
neighbour.)  The metric is instantiated with the squared Euclidean
distance, whose argsort coincides with the true Euclidean distance's
since squaring is strictly monotone on nonnegatives; the raw
per-feature standard deviations are supplied as stds — the conclusion
holds for every choice because the guarded values are always positive,
keeping the per-row scaling injective. -/
theorem knn_classifier_k1_self_prediction (X : List (List ℚ)) (y stds : List ℚ)
    (hrect : ∀ r ∈ X, r.length = (X.headD []).length)
    (hstds : stds.length = (X.headD []).length)
    (hlen : y.length = X.length)
    (hnodup : X.Nodup) :
    knnClfPredict sqEuclidDist (knnClfFit X y stds 1) X = Except.ok y := by
  set d := (X.headD []).length with hd
  set m := colMeans d X with hm
  set s := stds.map guardStd with hs
  set Q := X.map (fun r => scaleRow r m s) with hQ
  have hQlen : Q.length = X.length := by simp [hQ]
  have hmlen : m.length = d := colMeans_length d X
  have hslen : s.length = d := by simp [hs, hstds]
  have hspos : ∀ z ∈ s, 0 < z := by
    intro z hz
    rcases List.mem_map.mp hz with ⟨w, -, rfl⟩
    exact guardStd_pos w
  have hrowd : ∀ (j : ℕ) (hj : j < X.length), X[j].length = d :=
    fun j hj => hrect _ (List.getElem_mem hj)
  have hQrow : ∀ (j : ℕ) (hj : j < Q.length) (hjx : j < X.length),
      Q[j] = scaleRow X[j] m s := by
    intro j hj hjx
    simp [hQ]
  have hQrowd : ∀ (j : ℕ) (hj : j < Q.length), Q[j].length = d := by
    intro j hj
    rw [hQrow j hj (by rwa [hQlen] at hj), scaleRow_length]
    · exact hrowd _ _
    · rw [hmlen, hrowd _ _]
    · rw [hslen, hrowd _ _]
  show Except.ok (Q.map (fun x =>
      majorityVote (((argsortQ (Q.map (fun xtr => sqEuclidDist x xtr))).take 1).map
        (fun i => y.getD i 0)))) = Except.ok y
  refine congrArg Except.ok ?_
  apply List.ext_getElem
  · simp [hQlen, hlen]
  · intro idx h1 h2
    have hq1 : idx < Q.length := by simpa using h1
    have hx1 : idx < X.length := by rwa [hQlen] at hq1
    simp only [List.getElem_map]
    have hdzero : (Q.map (fun xtr => sqEuclidDist Q[idx] xtr)).getD idx 0 = 0 := by
      rw [List.getD_eq_getElem _ _ (by simpa using hq1), List.getElem_map]
      exact sqEuclidDist_self _
    have hdpos : ∀ j < (Q.map (fun xtr => sqEuclidDist Q[idx] xtr)).length,
        j ≠ idx → 0 < (Q.map (fun xtr => sqEuclidDist Q[idx] xtr)).getD j 0 := by
      intro j hj hne
      have hqj : j < Q.length := by simpa using hj
      have hxj : j < X.length := by rwa [hQlen] at hqj
      have hgd : (Q.map (fun xtr => sqEuclidDist Q[idx] xtr)).getD j 0
          = sqEuclidDist Q[idx] Q[j] := by
        rw [List.getD_eq_getElem _ _ hj]
        exact List.getElem_map _
      rw [hgd]
      apply sqEuclidDist_pos
      · rw [hQrowd idx hq1, hQrowd j hqj]
      · intro hcon
        rw [hQrow idx hq1 hx1, hQrow j hqj hxj] at hcon
        have hXeq : X[idx] = X[j] := by
          apply scaleRow_inj _ _ m s _ _ _ hspos hcon
          · rw [hrowd idx hx1, hrowd j hxj]
          · rw [hmlen, hrowd idx hx1]
          · rw [hslen, hrowd idx hx1]
        exact hne ((hnodup.getElem_inj_iff).mp hXeq).symm
    obtain ⟨t, ht⟩ := argsortQ_head_unique_zero _ idx (by simpa using hq1) hdzero hdpos
    rw [ht]
    simp only [List.take_succ_cons, List.take_zero, List.map_cons, List.map_nil]
    rw [majorityVote_singleton]
    exact List.getD_eq_getElem y 0 h2

/-- Witness for knn_classifier_k1_self_prediction: two distinct
one-feature rows with distinct labels are each given their own label
(the supplied std 1 is the exact np.std of the column [0, 2]). -/
theorem knn_classifier_k1_self_prediction_witness :
    knnClfPredict sqEuclidDist (knnClfFit [[0], [2]] [3, 4] [1] 1) [[0], [2]]
      = Except.ok [3, 4]
    ∧ varQ (colVals [[0], [2]] 0) = 1 ^ 2 := by
  constructor
  · exact knn_classifier_k1_self_prediction [[0], [2]] [3, 4] [1]
      (by decide) (by decide) (by decide) (by decide)
  · norm_num [varQ, meanQ, colVals]

/-- Claim C8 counterexample: training set [[0], [0]] (a duplicated row)
with labels [0, 1] and k = 1.  Both rows scale to [0], every pairwise
distance is 0, and np.argsort's stable tie-break puts index 0 first for
both queries, so the prediction is [0, 0] — the second row does NOT
receive its own label 1.  The supplied raw std 0 is exact: the column
[0, 0] has variance 0 (third conjunct), and the zero-variance guard
pins the stored std to 1. -/
theorem knn_claim_fails_on_duplicate_rows :
    knnClfPredict sqEuclidDist (knnClfFit [[0], [0]] [0, 1] [0] 1) [[0], [0]]
      = Except.ok [0, 0]
    ∧ ([0, 0] : List ℚ) ≠ [0, 1]
    ∧ varQ (colVals [[0], [0]] 0) = 0 ^ 2 := by
  refine ⟨?_, by norm_num, by norm_num [varQ, meanQ, colVals]⟩
  norm_num [knnClfPredict, knnClfFit, colMeans, colVals, meanQ, guardStd, eps10,
    scaleRow, sqEuclidDist, argsortQ, enumFrom, sortPairsAsc, insertPairAsc,
    majorityVote, uniqueSorted, sortAscQ, insertAscQ, argmaxIdx, argmaxFrom,
    List.range_succ, List.dedup]

/-- One standardised column: (x - mean) / std elementwise. -/
def scaleCol (c : List ℚ) (mu g : ℚ) : List ℚ := c.map (fun x => (x - mu) / g)

/-- Columnwise standardisation of a matrix given per-column (already
guarded) standard deviations: each column is centered by its own mean
and divided by its own std, exactly the broadcast (X - mean) / std. -/
def scaleCols : List (List ℚ) → List ℚ → List (List ℚ)
  | c :: cs, g :: gs => scaleCol c (meanQ c) g :: scaleCols cs gs
  | _, _ => []

/-- Model of robust_feature_scaling (utils/preprocessing.py lines
44-57) on the list of COLUMNS of the matrix (all numpy operations here
are per-column: np.mean/np.std with axis=0 and the broadcast division).
The X.size == 0 early exit returns the input unchanged; otherwise the
per-feature stds (np.std values, supplied as stds since the square root
is irrational; theorems certify them against varQ) pass through the
zero-variance guard and the scaled matrix, means and guarded stds are
returned. -/
def robust_feature_scaling (cols : List (List ℚ)) (stds : List ℚ) :
    List (List ℚ) × List ℚ × List ℚ :=
  if (cols.map List.length).sum = 0 then (cols, [], [])
  else (scaleCols cols (stds.map guardStd), cols.map meanQ, stds.map guardStd)

theorem sum_map_sub_div (c : List ℚ) (a b : ℚ) :
    (c.map (fun x => (x - a) / b)).sum = (c.sum - c.length * a) / b := by
  induction c with
  | nil => simp
  | cons x xs ih =>
    simp only [List.map_cons, List.sum_cons, ih, List.length_cons]
    rw [div_add_div_same]
    congr 1
    push_cast
    ring

theorem scaleCol_meanQ (c : List ℚ) (hne : c ≠ []) (g : ℚ) :
    meanQ (scaleCol c (meanQ c) g) = 0 := by
  have hn : (c.length : ℚ) ≠ 0 :=
    Nat.cast_ne_zero.mpr (fun h => hne (List.length_eq_zero.mp h))
  have hzero : c.sum - (c.length : ℚ) * (c.sum / c.length) = 0 := by
    rw [mul_comm, div_mul_cancel₀ _ hn, sub_self]
  unfold scaleCol meanQ
  rw [List.length_map, sum_map_sub_div, hzero]
  simp

theorem sum_map_sq_div (c : List ℚ) (a b : ℚ) :
    (c.map (fun x => ((x - a) / b) ^ 2)).sum = (c.map (fun x => (x - a) ^ 2)).sum / b ^ 2 := by
  induction c with
  | nil => simp
  | cons x xs ih =>
    simp only [List.map_cons, List.sum_cons, ih]
    rw [div_pow, div_add_div_same]

theorem scaleCol_varQ (c : List ℚ) (hne : c ≠ []) (g : ℚ) :
    varQ (scaleCol c (meanQ c) g) = varQ c / g ^ 2 := by
  have hmean := scaleCol_meanQ c hne g
  unfold varQ
  rw [hmean]
  unfold scaleCol
  rw [List.map_map]
  have hcomp : ((fun x => (x - 0) ^ 2) ∘ fun x => (x - meanQ c) / g)
      = fun x => ((x - meanQ c) / g) ^ 2 := by
    funext x
    simp
  rw [hcomp]
  unfold meanQ
  rw [sum_map_sq_div, List.length_map, List.length_map]
  rw [div_div, div_div, mul_comm]

theorem sq_eq_of_nonneg {a b : ℚ} (ha : 0 ≤ a) (hb : 0 ≤ b) (h : a ^ 2 = b ^ 2) : a = b := by
  nlinarith [sq_nonneg (a - b), sq_nonneg (a + b)]

theorem guard_second_std_one (c : List ℚ) (hne : c ≠ []) (s s2 : ℚ)
    (hs0 : 0 ≤ s) (hsv : s ^ 2 = varQ c)
    (hs20 : 0 ≤ s2) (hs2v : s2 ^ 2 = varQ (scaleCol c (meanQ c) (guardStd s))) :
    guardStd s2 = 1 := by
  have hvar := scaleCol_varQ c hne (guardStd s)
  by_cases hg : s < eps10
  · have hg1 : guardStd s = 1 := if_pos hg
    rw [hg1] at hvar hs2v
    have hs2s : s2 = s := by
      apply sq_eq_of_nonneg hs20 hs0
      rw [hs2v, hvar, hsv]
      simp
    rw [hs2s]
    exact if_pos hg
  · have hgs : guardStd s = s := if_neg hg
    have hspos : (0 : ℚ) < s := lt_of_lt_of_le (by norm_num [eps10]) (not_lt.mp hg)
    rw [hgs] at hvar hs2v
    have hone : varQ (scaleCol c (meanQ c) s) = 1 := by
      rw [hvar, ← hsv]
      field_simp
    have hs21 : s2 = 1 := by
      apply sq_eq_of_nonneg hs20 (by norm_num)
      rw [hs2v, hone]
      norm_num
    rw [hs21]
    unfold guardStd
    rw [if_neg (by norm_num [eps10])]

theorem scaleCol_id (c : List ℚ) (h : meanQ c = 0) : scaleCol c (meanQ c) 1 = c := by
  rw [h]
  unfold scaleCol
  simp

theorem scaleCols_map_length : ∀ (cols : List (List ℚ)) (gs : List ℚ),
    cols.length = gs.length → (scaleCols cols gs).map List.length = cols.map List.length := by
  intro cols
  induction cols with
  | nil =>
    intro gs h
    cases gs with
    | nil => rfl
    | cons _ _ => simp at h
  | cons c cs ih =>
    intro gs h
    cases gs with
    | nil => simp at h
    | cons g gs2 => simp [scaleCols, scaleCol, ih gs2 (by simpa using h)]

theorem scaleCols_idem : ∀ (cols : List (List ℚ)) (stds stds2 : List ℚ),
    (∀ c ∈ cols, c ≠ []) →
    List.Forall₂ (fun s c => 0 ≤ s ∧ s ^ 2 = varQ c) stds cols →
    List.Forall₂ (fun s c => 0 ≤ s ∧ s ^ 2 = varQ c) stds2
      (scaleCols cols (stds.map guardStd)) →
    scaleCols (scaleCols cols (stds.map guardStd)) (stds2.map guardStd)
      = scaleCols cols (stds.map guardStd) := by
  intro cols
  induction cols with
  | nil =>
    intro stds stds2 _ h1 _
    cases h1
    simp [scaleCols]
  | cons c cs ih =>
    intro stds stds2 hne h1 h2
    rcases h1 with _ | ⟨⟨hs0, hsv⟩, h1t⟩
    rename_i s ss
    simp only [List.map_cons, scaleCols] at h2 ⊢
    rcases h2 with _ | ⟨⟨hs20, hs2v⟩, h2t⟩
    rename_i s2 ss2
    have hcne : c ≠ [] := hne c (List.mem_cons_self c cs)
    have hg1 : guardStd s2 = 1 := guard_second_std_one c hcne s s2 hs0 hsv hs20 hs2v
    simp only [List.map_cons, scaleCols]
    rw [hg1, scaleCol_id _ (scaleCol_meanQ c hcne _),
      ih ss ss2 (fun z hz => hne z (List.mem_cons_of_mem c hz)) h1t h2t]

/-- Claim C9 (confirmed): feature scaling is idempotent.  For every
matrix (given by its columns, all nonempty) and every pair of certified
per-feature std vectors (nonnegative, squaring to the column variance —
the exact np.std values), re-applying robust_feature_scaling to the
scaled matrix X' reproduces X' exactly: each scaled column has mean 0,
and its std is 1 (when the original std passed the guard) or is pinned
to 1 by the zero-variance guard (when the original column variance was
below the cutoff squared), so the second scaling divides by 1 and
subtracts 0.  In exact rational arithmetic the reproduction is exact,
a fortiori within floating tolerance. -/
theorem feature_scaling_idempotent (cols : List (List ℚ)) (stds stds2 : List ℚ)
    (hne : ∀ c ∈ cols, c ≠ [])
    (h1 : List.Forall₂ (fun s c => 0 ≤ s ∧ s ^ 2 = varQ c) stds cols)
    (h2 : List.Forall₂ (fun s c => 0 ≤ s ∧ s ^ 2 = varQ c) stds2
      (robust_feature_scaling cols stds).1) :
    (robust_feature_scaling (robust_feature_scaling cols stds).1 stds2).1
      = (robust_feature_scaling cols stds).1 := by
  by_cases hg : (cols.map List.length).sum = 0
  · have hcols : cols = [] := by
      cases cols with
      | nil => rfl
      | cons c cs =>
        exfalso
        have hclen : 0 < c.length :=
          List.length_pos.mpr (hne c (List.mem_cons_self c cs))
        simp only [List.map_cons, List.sum_cons] at hg
        omega
    subst hcols
    simp [robust_feature_scaling]
  · have hfirst : (robust_feature_scaling cols stds).1
        = scaleCols cols (stds.map guardStd) := by
      unfold robust_feature_scaling
      rw [if_neg hg]
    have hlens : (scaleCols cols (stds.map guardStd)).map List.length
        = cols.map List.length := by
      apply scaleCols_map_length
      rw [List.length_map, h1.length_eq]
    have hg2 : ¬ ((robust_feature_scaling cols stds).1.map List.length).sum = 0 := by
      rw [hfirst, hlens]
      exact hg
    rw [hfirst] at h2 ⊢
    unfold robust_feature_scaling
    rw [hfirst] at hg2
    rw [if_neg hg2]
    exact scaleCols_idem cols stds stds2 hne h1 h2

/-- Witness for feature_scaling_idempotent: the single column [0, 2]
(mean 1, variance 1, exact std 1) scales to [-1, 1], and scaling
[-1, 1] again (its exact std is also 1) reproduces [-1, 1]. -/
theorem feature_scaling_idempotent_witness :
    (robust_feature_scaling (robust_feature_scaling [[0, 2]] [1]).1 [1]).1
      = (robust_feature_scaling [[0, 2]] [1]).1
    ∧ (robust_feature_scaling [[0, 2]] [1]).1 = [[-1, 1]] := by
  have hX : (robust_feature_scaling [[0, 2]] [1]).1 = [[-1, 1]] := by
    norm_num [robust_feature_scaling, scaleCols, scaleCol, meanQ, guardStd, eps10]
  refine ⟨?_, hX⟩
  apply feature_scaling_idempotent
  · intro c hc
    rcases List.mem_singleton.mp hc with rfl
    simp
  · exact List.Forall₂.cons ⟨by norm_num, by norm_num [varQ, meanQ]⟩ List.Forall₂.nil
  · rw [hX]
    exact List.Forall₂.cons ⟨by norm_num, by norm_num [varQ, meanQ]⟩ List.Forall₂.nil

/-- MSE loss np.mean((X @ w - y)^2) of a weight vector on a design
matrix and target vector. -/
def mseLoss (X : List (List ℚ)) (y w : List ℚ) : ℚ :=
  meanQ (((X.map (fun r => dotQ r w)).zip y).map (fun p => (p.1 - p.2) ^ 2))

/-- Gradient (2/n) * X.T @ (X @ w - y) of the MSE loss
(regression.py line 78). -/
def gradientVec (X : List (List ℚ)) (y w : List ℚ) : List ℚ :=
  let err := ((X.map (fun r => dotQ r w)).zip y).map (fun p => p.1 - p.2)
  (List.range (X.headD []).length).map (fun j =>
    (2 / (X.length : ℚ)) * ((X.zip err).map (fun p => p.1.getD j 0 * p.2)).sum)

/-- Why the gradient-descent loop stopped. -/
inductive StopReason where
  | patience : StopReason
  | gradSmall : StopReason
  | budget : StopReason
deriving DecidableEq, Repr

/-- Result of the gradient-descent solver: the returned best-snapshot
weights, the MSE loss observed at each executed iteration (recorded for
specification; the code computes exactly these values at line 63), the
number of iterations executed, and the stopping condition that fired. -/
structure GDResult where
  weights : List ℚ
  losses : List ℚ
  itersRun : ℕ
  stop : StopReason

/-- Improvement test of the loop: with no best yet (best_loss = inf)
every finite loss improves; otherwise the new loss must undercut the
best loss by MORE than tol (regression.py line 66). -/
def improvedB (tol loss : ℚ) : Option (ℚ × List ℚ) → Bool
  | none => true
  | some b => decide (loss < b.1 - tol)

/-- Loop body of LinearRegression._gradient_descent (regression.py
lines 57-94), one constructor case per remaining-budget amount.  State:
current weights w, best (loss, snapshot) pair (None models the initial
best_loss = inf with best_weights = w0, which the first iteration
always improves), patience counter, and the reversed loss log.  Each
iteration: compute the loss; count it as an improvement only when it
beats the best loss by MORE than tol; stop when the patience counter
reaches 100 (before touching the weights); otherwise normalise the
gradient to unit norm when its norm exceeds 1, apply the decayed
learning rate lr/(1 + 0.001 t), update the weights, and stop after the
update when the (pre-normalisation) gradient norm is below tol.  The
Euclidean norm np.linalg.norm is passed in as normOf. -/
def gdLoop (normOf : List ℚ → ℚ) (lr tol : ℚ) (X : List (List ℚ)) (y : List ℚ) :
    ℕ → ℕ → List ℚ → Option (ℚ × List ℚ) → ℕ → List ℚ → GDResult
  | 0, t, w, best, _pc, losses =>
    { weights := (match best with | some b => b.2 | none => w)
      losses := losses.reverse
      itersRun := t
      stop := StopReason.budget }
  | fuel + 1, t, w, best, pc, losses =>
    let loss := mseLoss X y w
    let best2 := if improvedB tol loss best then some (loss, w) else best
    let pc2 := if improvedB tol loss best then 0 else pc + 1
    if 100 ≤ pc2 then
      { weights := (match best2 with | some b => b.2 | none => w)
        losses := (loss :: losses).reverse
        itersRun := t + 1
        stop := StopReason.patience }
    else
      let g := gradientVec X y w
      let gn := normOf g
      let g2 := if 1 < gn then g.map (fun z => z / gn) else g
      let lrt := lr / (1 + (1 / 1000) * (t : ℚ))
      let w2 := (w.zip g2).map (fun p => p.1 - lrt * p.2)
      if gn < tol then
        { weights := (match best2 with | some b => b.2 | none => w)
          losses := (loss :: losses).reverse
          itersRun := t + 1
          stop := StopReason.gradSmall }
      else
        gdLoop normOf lr tol X y fuel (t + 1) w2 best2 pc2 (loss :: losses)

/-- Model of LinearRegression._gradient_descent (regression.py lines
45-94): runs the loop for at most n_iterations iterations from the
(randomly drawn, here supplied) initial weights w0 and returns the best
snapshot.  A total function: non-convergence never raises. -/
def gradient_descent (normOf : List ℚ → ℚ) (lr tol : ℚ) (nIter : ℕ)
    (X : List (List ℚ)) (y w0 : List ℚ) : GDResult :=
  gdLoop normOf lr tol X y nIter 0 w0 none 0 []

/-- Sum of absolute values; equals np.linalg.norm on the length-1
vectors that arise as gradients of a one-feature fit, the only vectors
it is applied to in the run analysed below. -/
def absNorm (v : List ℚ) : ℚ := (v.map (fun z => |z|)).sum


/-- Invariant established for the gradient-descent result: the returned
weights score within tol of every observed loss, the iteration count
respects the budget cap, one loss is logged per iteration, and a
budget stop means the cap was exhausted. -/
def GDInv (X : List (List ℚ)) (y : List ℚ) (tol : ℚ) (cap : ℕ) (r : GDResult) : Prop :=
  (∀ L ∈ r.losses, mseLoss X y r.weights ≤ L + tol)
  ∧ r.itersRun ≤ cap
  ∧ r.losses.length = r.itersRun
  ∧ (r.stop = StopReason.budget → r.itersRun = cap)

theorem gdLoop_spec (normOf : List ℚ → ℚ) (lr tol : ℚ) (X : List (List ℚ)) (y : List ℚ)
    (htol : 0 ≤ tol) :
    ∀ (fuel t : ℕ) (w : List ℚ) (best : Option (ℚ × List ℚ)) (pc : ℕ) (losses : List ℚ),
    (best = none → losses = []) →
    (∀ bl bw, best = some (bl, bw) → bl = mseLoss X y bw ∧ ∀ L ∈ losses, bl ≤ L + tol) →
    losses.length = t →
    GDInv X y tol (t + fuel) (gdLoop normOf lr tol X y fuel t w best pc losses) := by
  intro fuel
  induction fuel with
  | zero =>
    intro t w best pc losses hnone hsome hlt
    simp only [gdLoop]
    cases best with
    | none =>
      rw [hnone rfl] at hlt ⊢
      simp only [List.length_nil] at hlt
      subst hlt
      exact ⟨by simp, by dsimp only; omega, by simp, fun _ => by simp⟩
    | some b =>
      obtain ⟨hbl, hall⟩ := hsome b.1 b.2 rfl
      refine ⟨?_, by dsimp only; omega, by simp [hlt], fun _ => by dsimp only; omega⟩
      intro L hL
      simp only [List.mem_reverse] at hL
      show mseLoss X y b.2 ≤ L + tol
      rw [← hbl]
      exact hall L hL
  | succ fuel ih =>
    intro t w best pc losses hnone hsome hlt
    simp only [gdLoop]
    cases best with
    | none =>
      have hempty : losses = [] := hnone rfl
      subst hempty
      simp only [List.length_nil] at hlt
      subst hlt
      simp only [improvedB, if_true]
      rw [if_neg (by omega : ¬ (100 ≤ 0))]
      by_cases hgn : normOf (gradientVec X y w) < tol
      · rw [if_pos hgn]
        refine ⟨?_, by dsimp only; omega, by simp, fun hc => by simp at hc⟩
        intro L hL
        simp only [List.reverse_cons, List.reverse_nil, List.nil_append,
          List.mem_singleton] at hL
        subst hL
        show mseLoss X y w ≤ mseLoss X y w + tol
        linarith
      · rw [if_neg hgn]
        rw [show (0 : ℕ) + (fuel + 1) = (0 + 1) + fuel from by omega]
        exact ih (0 + 1) _ (some (mseLoss X y w, w)) 0 [mseLoss X y w]
          (by intro hc; exact absurd hc (by simp))
          (by
            intro bl bw hbw
            injection hbw with hbw2
            have hb1 : bl = mseLoss X y w := (congrArg Prod.fst hbw2).symm
            have hb2 : bw = w := (congrArg Prod.snd hbw2).symm
            subst hb1
            subst hb2
            refine ⟨rfl, ?_⟩
            intro L hL
            simp only [List.mem_singleton] at hL
            subst hL
            linarith)
          (by simp)
    | some b =>
      obtain ⟨hbl, hall⟩ := hsome b.1 b.2 rfl
      simp only [improvedB, decide_eq_true_eq]
      by_cases himp : mseLoss X y w < b.1 - tol
      · simp only [if_pos himp]
        rw [if_neg (by omega : ¬ (100 ≤ 0))]
        have hnewall : ∀ L ∈ mseLoss X y w :: losses, mseLoss X y w ≤ L + tol := by
          intro L hL
          rcases List.mem_cons.mp hL with rfl | hL2
          · linarith
          · have := hall L hL2
            linarith
        by_cases hgn : normOf (gradientVec X y w) < tol
        · rw [if_pos hgn]
          refine ⟨?_, by dsimp only; omega, by simp [hlt], fun hc => by simp at hc⟩
          intro L hL
          simp only [List.mem_reverse] at hL
          exact hnewall L hL
        · rw [if_neg hgn]
          rw [show t + (fuel + 1) = (t + 1) + fuel from by omega]
          exact ih (t + 1) _ (some (mseLoss X y w, w)) 0
            (mseLoss X y w :: losses)
            (by intro hc; exact absurd hc (by simp))
            (by
              intro bl bw hbw
              injection hbw with hbw2
              have hb1 : bl = mseLoss X y w := (congrArg Prod.fst hbw2).symm
              have hb2 : bw = w := (congrArg Prod.snd hbw2).symm
              subst hb1
              subst hb2
              exact ⟨rfl, hnewall⟩)
            (by simp [hlt])
      · simp only [if_neg himp]
        have hnewall : ∀ L ∈ mseLoss X y w :: losses, b.1 ≤ L + tol := by
          intro L hL
          rcases List.mem_cons.mp hL with rfl | hL2
          · linarith [not_lt.mp himp]
          · exact hall L hL2
        by_cases hpat : 100 ≤ pc + 1
        · rw [if_pos hpat]
          refine ⟨?_, by dsimp only; omega, by simp [hlt], fun hc => by simp at hc⟩
          intro L hL
          simp only [List.mem_reverse] at hL
          show mseLoss X y b.2 ≤ L + tol
          rw [← hbl]
          exact hnewall L hL
        · rw [if_neg hpat]
          by_cases hgn : normOf (gradientVec X y w) < tol
          · rw [if_pos hgn]
            refine ⟨?_, by dsimp only; omega, by simp [hlt], fun hc => by simp at hc⟩
            intro L hL
            simp only [List.mem_reverse] at hL
            show mseLoss X y b.2 ≤ L + tol
            rw [← hbl]
            exact hnewall L hL
          · rw [if_neg hgn]
            rw [show t + (fuel + 1) = (t + 1) + fuel from by omega]
            exact ih (t + 1) _ (some b) (pc + 1)
              (mseLoss X y w :: losses)
              (by intro hc; exact absurd hc (by simp))
              (by
                intro bl bw hbw
                injection hbw with hbw2
                subst hbw2
                exact ⟨hbl, hnewall⟩)
              (by simp [hlt])

/-- Claim C5 (amended): whatever the norm oracle, learning rate,
tolerance (nonnegative), budget and data, the gradient-descent loop is
a total function that executes at most n_iterations iterations (one
loss logged per executed iteration) and never raises; it stops via the
patience counter (100 consecutive non-improving iterations), the
gradient-norm tolerance, or budget exhaustion (and a budget stop means
all n_iterations ran); and the weight vector it returns is the
best-snapshot under the code's improvement rule loss < best - tol: its
loss is within tol of EVERY observed loss — but, because an improvement
must beat the best by more than tol, it is not necessarily the snapshot
with the lowest observed loss (see the counterexample). -/
theorem gradient_descent_best_snapshot (normOf : List ℚ → ℚ) (lr tol : ℚ)
    (htol : 0 ≤ tol) (nIter : ℕ) (X : List (List ℚ)) (y w0 : List ℚ) :
    (gradient_descent normOf lr tol nIter X y w0).itersRun ≤ nIter
    ∧ (gradient_descent normOf lr tol nIter X y w0).losses.length
        = (gradient_descent normOf lr tol nIter X y w0).itersRun
    ∧ (∀ L ∈ (gradient_descent normOf lr tol nIter X y w0).losses,
        mseLoss X y (gradient_descent normOf lr tol nIter X y w0).weights ≤ L + tol)
    ∧ ((gradient_descent normOf lr tol nIter X y w0).stop = StopReason.budget →
        (gradient_descent normOf lr tol nIter X y w0).itersRun = nIter) := by
  have h := gdLoop_spec normOf lr tol X y htol nIter 0 w0 none 0 []
    (fun _ => rfl) (fun bl bw hbw => absurd hbw (by simp)) rfl
  simp only [gradient_descent]
  exact ⟨by have := h.2.1; omega, h.2.2.1, h.1,
    fun hb => by have := h.2.2.2 hb; omega⟩

/-- Witness for gradient_descent_best_snapshot on the concrete
two-iteration run analysed in the counterexample: the returned snapshot
scores within tol = 1 of the observed loss 4. -/
theorem gradient_descent_best_snapshot_witness :
    mseLoss [[1]] [0] (gradient_descent absNorm (1 / 100) 1 2 [[1]] [0] [2]).weights
      ≤ 4 + 1 := by
  have h := gradient_descent_best_snapshot absNorm (1 / 100) 1 (by norm_num) 2 [[1]] [0] [2]
  refine h.2.2.1 4 ?_
  norm_num [gradient_descent, gdLoop, improvedB, mseLoss, meanQ, dotQ, gradientVec,
    absNorm, List.range_succ, abs_div]

/-- Claim C5 counterexample: _gradient_descent with X = [[1]], y = [0],
initial weights [2], learning rate 1/100, tol = 1 (a legal constructor
argument) and a budget of 2 iterations.  Iteration 0 records loss 4 and
snapshots [2]; iteration 1 reaches weights [199/100] with loss
39601/10000 = 3.9601 < 4, but 3.9601 does not undercut 4 - tol = 3, so
the snapshot is not replaced and the loop returns [2] — whose loss 4 is
NOT the lowest MSE loss observed over all iterations.  (absNorm is
np.linalg.norm on the length-1 gradients of this run: the last two
conjuncts pin its values on the two gradients encountered, [4] and
[199/50].) -/
theorem gd_claim_best_observed_not_returned :
    (gradient_descent absNorm (1 / 100) 1 2 [[1]] [0] [2]).weights = [2]
    ∧ (gradient_descent absNorm (1 / 100) 1 2 [[1]] [0] [2]).losses
        = [4, 39601 / 10000]
    ∧ mseLoss [[1]] [0] [2] = 4
    ∧ ((39601 : ℚ) / 10000) < 4
    ∧ absNorm [4] = 4 ∧ absNorm [199 / 50] = 199 / 50 := by
  refine ⟨?_, ?_, by norm_num [mseLoss, meanQ, dotQ], by norm_num,
    by norm_num [absNorm], by norm_num [absNorm]⟩ <;>
    norm_num [gradient_descent, gdLoop, improvedB, mseLoss, meanQ, dotQ, gradientVec,
      absNorm, List.range_succ, abs_div]

/-- One agglomeration record: the two merged clusters (as member-index
lists) and the linkage distance at which they merged. -/
structure MergeRec where
  cluster_1 : List ℕ
  cluster_2 : List ℕ
  distance : ℚ
deriving DecidableEq, Repr

/-- Linkage rule of HierarchicalClustering (an invalid linkage string
raises ValueError inside cluster_distance before any merge happens; the
claims settled here only involve valid linkages). -/
inductive Linkage where
  | single : Linkage
  | complete : Linkage
  | average : Linkage
deriving DecidableEq, Repr

/-- np.min of a list (numpy raises on empty; clusters are nonempty). -/
def listMinQ : List ℚ → ℚ
  | [] => 0
  | x :: xs => xs.foldl min x

/-- np.max of a list. -/
def listMaxQ : List ℚ → ℚ
  | [] => 0
  | x :: xs => xs.foldl max x

/-- cluster_distance (clustering.py lines 165-178): all pairwise member
distances, aggregated by the linkage rule. -/
def cluster_distance (dist : List ℚ → List ℚ → ℚ) (Xs : List (List ℚ))
    (link : Linkage) (c1 c2 : List ℕ) : ℚ :=
  let ds := (c1.map (fun i => c2.map (fun j => dist (Xs.getD i []) (Xs.getD j [])))).flatten
  match link with
  | Linkage.single => listMinQ ds
  | Linkage.complete => listMaxQ ds
  | Linkage.average => meanQ ds

/-- Index pairs (i, j) with i < j < n, enumerated in the double-loop
order of clustering.py lines 185-186 (the inner loop range(i+1, n)
written as offsets from i+1). -/
def allPairs (n : ℕ) : List (ℕ × ℕ) :=
  ((List.range n).map (fun i =>
    ((List.range (n - (i + 1))).map (fun off => (i, i + 1 + off))))).flatten

/-- The scan for the closest pair (lines 182-190): min_dist starts at
infinity and is replaced only on a strict decrease, so the first
minimal pair is kept; None is returned only when there are no pairs
(at which point the Python code would crash unpacking merge_idx — the
claims only reach this with at least two clusters). -/
def bestPair (f : ℕ × ℕ → ℚ) (ps : List (ℕ × ℕ)) : Option (ℚ × ℕ × ℕ) :=
  ps.foldl (fun acc p =>
    match acc with
    | none => some (f p, p)
    | some (d0, p0) => if f p < d0 then some (f p, p) else some (d0, p0)) none

/-- One agglomeration step (lines 185-203): find the closest pair,
record the merge, pop j then i (j > i), and append the union. -/
def hcStep (cd : List ℕ → List ℕ → ℚ) (clusters : List (List ℕ)) :
    Option (MergeRec × List (List ℕ)) :=
  match bestPair (fun p => cd (clusters.getD p.1 []) (clusters.getD p.2 []))
      (allPairs clusters.length) with
  | none => none
  | some (d, i, j) =>
    let ci := clusters.getD i []
    let cj := clusters.getD j []
    some (⟨ci, cj, d⟩, ((clusters.eraseIdx j).eraseIdx i) ++ [ci ++ cj])

/-- The while-loop of fit (line 181): keep merging while more than
n_clusters clusters remain, appending each record to the history. -/
def hcLoop (cd : List ℕ → List ℕ → ℚ) :
    ℕ → List (List ℕ) → List MergeRec → ℕ → List (List ℕ) × List MergeRec
  | 0, clusters, hist, _ => (clusters, hist)
  | fuel + 1, clusters, hist, k =>
    if k < clusters.length then
      match hcStep cd clusters with
      | none => (clusters, hist)
      | some (r, clusters2) => hcLoop cd fuel clusters2 (hist ++ [r]) k
    else (clusters, hist)

/-- Final label assignment (lines 206-209): each sample gets the index
of the cluster containing it (np.zeros default 0 when absent, which
cannot happen since the clusters partition the samples). -/
def labelsFromClusters (n : ℕ) (clusters : List (List ℕ)) : List ℕ :=
  (List.range n).map (fun i =>
    if clusters.any (fun c => i ∈ c) then clusters.findIdx (fun c => decide (i ∈ c)) else 0)

/-- Fields of a HierarchicalClustering instance relevant to fit
(clustering.py lines 123-133): merge_history is created as [] by the
CONSTRUCTOR and, crucially, never reset by fit. -/
structure HCState where
  n_clusters : ℕ
  linkage : Linkage
  merge_history : List MergeRec
  labels : Option (List ℕ)
  n_iters_ : Option ℕ

/-- State of a freshly constructed HierarchicalClustering. -/
def hcInit (k : ℕ) (link : Linkage) : HCState := ⟨k, link, [], none, none⟩

/-- Model of HierarchicalClustering.fit (clustering.py lines 143-214):
standardise (raw stds supplied, guard applied here), start from
singleton clusters, merge down to n_clusters appending one record per
step to the EXISTING history, then assign labels.  The sample count
bounds the number of merges, so it serves as the loop fuel. -/
def hcFit (dist : List ℚ → List ℚ → ℚ) (stds : List ℚ) (st : HCState)
    (X : List (List ℚ)) : HCState :=
  let d := (X.headD []).length
  let m := colMeans d X
  let s := stds.map guardStd
  let Xs := X.map (fun r => scaleRow r m s)
  let clusters0 := (List.range Xs.length).map (fun i => [i])
  let cd := cluster_distance dist Xs st.linkage
  let res := hcLoop cd Xs.length clusters0 st.merge_history st.n_clusters
  { st with
      merge_history := res.2
      labels := some (labelsFromClusters Xs.length res.1)
      n_iters_ := some (Xs.length - st.n_clusters) }

theorem hcLoop_hist_accum (cd : List ℕ → List ℕ → ℚ) :
    ∀ (fuel : ℕ) (clusters : List (List ℕ)) (hist : List MergeRec) (k : ℕ),
      hcLoop cd fuel clusters hist k
        = ((hcLoop cd fuel clusters [] k).1, hist ++ (hcLoop cd fuel clusters [] k).2) := by
  intro fuel
  induction fuel with
  | zero =>
    intro clusters hist k
    simp [hcLoop]
  | succ fuel ih =>
    intro clusters hist k
    simp only [hcLoop]
    by_cases hk : k < clusters.length
    · simp only [if_pos hk]
      cases hstep : hcStep cd clusters with
      | none => simp
      | some pr =>
        obtain ⟨r, c2⟩ := pr
        simp only []
        rw [ih c2 (hist ++ [r]) k, ih c2 ([] ++ [r]) k]
        simp [List.append_assoc]
    · simp only [if_neg hk]
      simp

theorem bestPair_foldl_some (f : ℕ × ℕ → ℚ) :
    ∀ (ps : List (ℕ × ℕ)) (a : ℚ × ℕ × ℕ),
      ∃ d q, ps.foldl (fun acc p =>
        match acc with
        | none => some (f p, p)
        | some (d0, p0) => if f p < d0 then some (f p, p) else some (d0, p0))
          (some a) = some (d, q) := by
  intro ps
  induction ps with
  | nil => intro a; exact ⟨a.1, a.2, rfl⟩
  | cons p ps ih =>
    intro a
    show ∃ d q, ps.foldl _ (if f p < a.1 then some (f p, p) else some (a.1, a.2)) = some (d, q)
    by_cases hc : f p < a.1
    · rw [if_pos hc]; exact ih (f p, p)
    · rw [if_neg hc]; exact ih (a.1, a.2)

theorem bestPair_foldl_mem (f : ℕ × ℕ → ℚ) :
    ∀ (ps : List (ℕ × ℕ)) (a : ℚ × ℕ × ℕ) (d : ℚ) (q : ℕ × ℕ),
      ps.foldl (fun acc p =>
        match acc with
        | none => some (f p, p)
        | some (d0, p0) => if f p < d0 then some (f p, p) else some (d0, p0))
          (some a) = some (d, q) → q = a.2 ∨ q ∈ ps := by
  intro ps
  induction ps with
  | nil =>
    intro a d q h
    left
    have : (a.1, a.2) = (d, q) := by
      injection h
    exact (congrArg Prod.snd this).symm ▸ rfl
  | cons p ps ih =>
    intro a d q h
    replace h : ps.foldl _ (if f p < a.1 then some (f p, p) else some (a.1, a.2)) = some (d, q) := h
    by_cases hc : f p < a.1
    · rw [if_pos hc] at h
      rcases ih (f p, p) d q h with h2 | h2
      · exact Or.inr (h2 ▸ List.mem_cons_self p ps)
      · exact Or.inr (List.mem_cons_of_mem p h2)
    · rw [if_neg hc] at h
      rcases ih (a.1, a.2) d q h with h2 | h2
      · exact Or.inl h2
      · exact Or.inr (List.mem_cons_of_mem p h2)

theorem mem_allPairs (n i j : ℕ) (h : (i, j) ∈ allPairs n) : i < j ∧ j < n := by
  unfold allPairs at h
  rw [List.mem_flatten] at h
  obtain ⟨l, hl, hmem⟩ := h
  rw [List.mem_map] at hl
  obtain ⟨i0, hi0, rfl⟩ := hl
  rw [List.mem_map] at hmem
  obtain ⟨off, hoff, heq⟩ := hmem
  have hi : i0 = i := congrArg Prod.fst heq
  have hj : i0 + 1 + off = j := congrArg Prod.snd heq
  rw [List.mem_range] at hi0 hoff
  omega

theorem pair01_mem_allPairs (n : ℕ) (h : 2 ≤ n) : ((0, 1) : ℕ × ℕ) ∈ allPairs n := by
  unfold allPairs
  rw [List.mem_flatten]
  refine ⟨(List.range (n - 1)).map (fun off => (0, 1 + off)), ?_, ?_⟩
  · rw [List.mem_map]
    exact ⟨0, by rw [List.mem_range]; omega, by norm_num⟩
  · rw [List.mem_map]
    exact ⟨0, by rw [List.mem_range]; omega, by norm_num⟩

theorem hcStep_some (cd : List ℕ → List ℕ → ℚ) (clusters : List (List ℕ))
    (h2 : 2 ≤ clusters.length) :
    ∃ r clusters2, hcStep cd clusters = some (r, clusters2)
      ∧ clusters2.length = clusters.length - 1 := by
  unfold hcStep
  rcases hAP : allPairs clusters.length with _ | ⟨p, ps⟩
  · exfalso
    have := pair01_mem_allPairs clusters.length h2
    rw [hAP] at this
    exact absurd this (List.not_mem_nil _)
  · unfold bestPair
    rw [List.foldl_cons]
    obtain ⟨d, q, hq⟩ := bestPair_foldl_some
      (fun p => cd (clusters.getD p.1 []) (clusters.getD p.2 [])) ps
      (cd (clusters.getD p.1 []) (clusters.getD p.2 []), p)
    rw [hq]
    have hqmem : q = p ∨ q ∈ ps := bestPair_foldl_mem _ ps _ d q hq
    have hqAP : (q.1, q.2) ∈ allPairs clusters.length := by
      rw [hAP]
      rcases hqmem with rfl | hm
      · exact List.mem_cons_self q ps
      · exact List.mem_cons_of_mem p hm
    obtain ⟨hij, hjn⟩ := mem_allPairs _ _ _ hqAP
    refine ⟨_, _, rfl, ?_⟩
    rw [List.length_append, List.length_eraseIdx, List.length_eraseIdx]
    simp only [List.length_singleton]
    split_ifs <;> omega

theorem hcLoop_hist_length (cd : List ℕ → List ℕ → ℚ) :
    ∀ (fuel : ℕ) (clusters : List (List ℕ)) (k : ℕ),
      1 ≤ k → clusters.length ≤ k + fuel →
      (hcLoop cd fuel clusters [] k).2.length = clusters.length - k := by
  intro fuel
  induction fuel with
  | zero =>
    intro clusters k hk hlen
    simp only [hcLoop, List.length_nil]
    omega
  | succ fuel ih =>
    intro clusters k hk hlen
    simp only [hcLoop]
    by_cases hklen : k < clusters.length
    · simp only [if_pos hklen]
      obtain ⟨r, c2, hstep, hc2len⟩ := hcStep_some cd clusters (by omega)
      rw [hstep]
      simp only []
      rw [hcLoop_hist_accum cd fuel c2 ([] ++ [r]) k]
      have hrec := ih c2 k hk (by omega)
      simp only [List.nil_append, List.singleton_append, List.length_cons, hrec]
      omega
    · simp only [if_neg hklen, List.length_nil]
      omega

/-- Claim C4 (amended): after fit on a FRESHLY CONSTRUCTED
HierarchicalClustering instance (empty merge_history) with
1 <= n_clusters < n samples, merge_history holds exactly n - n_clusters
records, one appended per agglomeration step in step order; but fit
never clears the field, so fitting an already-used instance APPENDS the
new fit's records after the previous history (second conjunct) — the
claim's "contains no records from any earlier fit" fails. -/
theorem hc_merge_history_per_fit (dist : List ℚ → List ℚ → ℚ) (stds : List ℚ)
    (st : HCState) (X : List (List ℚ))
    (hk1 : 1 ≤ st.n_clusters) (hk2 : st.n_clusters < X.length) :
    (hcFit dist stds { st with merge_history := [] } X).merge_history.length
        = X.length - st.n_clusters
    ∧ (hcFit dist stds st X).merge_history
        = st.merge_history
          ++ (hcFit dist stds { st with merge_history := [] } X).merge_history := by
  simp only [hcFit]
  have hXlen : (X.map (fun r =>
      scaleRow r (colMeans (X.headD []).length X) (stds.map guardStd))).length
      = X.length := by simp
  have hcl0len : ((List.range (X.map (fun r =>
      scaleRow r (colMeans (X.headD []).length X) (stds.map guardStd))).length).map
      (fun i => [i])).length = X.length := by simp
  constructor
  · rw [hcLoop_hist_length _ _ _ st.n_clusters hk1 (by omega)]
    omega
  · rw [hcLoop_hist_accum]

/-- Witness for hc_merge_history_per_fit: a fresh instance with
n_clusters = 1 and single linkage fitted on two samples logs exactly
one merge (the supplied std 1/2 is the exact np.std of column [0,1]). -/
theorem hc_merge_history_per_fit_witness :
    (hcFit manhattanDist [1 / 2] (hcInit 1 Linkage.single) [[0], [1]]).merge_history.length
      = 2 - 1 := by
  have h := hc_merge_history_per_fit manhattanDist [1 / 2] (hcInit 1 Linkage.single)
    [[0], [1]] (by decide) (by decide)
  exact h.1

/-- Claim C4 counterexample: fitting the SAME instance twice on the
two-sample dataset [[0], [1]] (n_clusters = 1, single linkage,
manhattan metric; std 1/2 is exact — third conjunct) leaves
merge_history with 2 records, not the n - n_clusters = 1 the claim
demands after every fit: the record of the first fit is still there. -/
theorem hc_merge_history_double_fit :
    (hcFit manhattanDist [1 / 2]
        (hcFit manhattanDist [1 / 2] (hcInit 1 Linkage.single) [[0], [1]])
        [[0], [1]]).merge_history.length = 2
    ∧ (2 : ℕ) ≠ 2 - 1
    ∧ varQ (colVals [[0], [1]] 0) = (1 / 2) ^ 2 := by
  refine ⟨?_, by decide, by norm_num [varQ, meanQ, colVals]⟩
  norm_num [hcFit, hcLoop, hcStep, bestPair, allPairs, cluster_distance, listMinQ,
    manhattanDist, scaleRow, colMeans, colVals, meanQ, guardStd, eps10, hcInit,
    labelsFromClusters, List.range_succ]

/-- Per-column mean vector np.mean(points, axis=0) of a nonempty set of
rows. -/
def meanVec (pts : List (List ℚ)) : List ℚ :=
  (List.range (pts.headD []).length).map (fun j => meanQ (colVals pts j))

/-- Assignment step of KMeans.fit (clustering.py lines 60-65): each
point goes to the first-minimal centroid under the configured metric. -/
def kmeansAssign (dist : List ℚ → List ℚ → ℚ) (X : List (List ℚ))
    (cents : List (List ℚ)) : List ℕ :=
  X.map (fun x => argminIdx (cents.map (fun c => dist x c)))

/-- Update step (lines 67-79): each centroid becomes the mean of its
assigned points; an empty cluster is reseeded to the data point drawn
by np.random.randint, supplied through reseed. -/
def updateCentroids (X : List (List ℚ)) (labels : List ℕ) (k : ℕ)
    (reseed : ℕ → ℕ) : List (List ℚ) :=
  (List.range k).map (fun i =>
    let pts := ((X.zip labels).filter (fun p => p.2 = i)).map (fun p => p.1)
    if pts.length = 0 then X.getD (reseed i) [] else meanVec pts)

/-- Squared Frobenius norm of the centroid difference; the convergence
test shift < tol (line 85) is rendered as shift^2 < tol^2, equivalent
for the nonnegative norm and tolerance. -/
def sqFrobDiff (A B : List (List ℚ)) : ℚ :=
  ((A.zip B).map (fun p => sqEuclidDist p.1 p.2)).sum

/-- Iteration loop of KMeans.fit (lines 58-86): assign, update
(re-seeding empty clusters with the per-iteration random draws
reseed t), install the new centroids, and stop when the shift drops
below tolerance or the budget runs out.  Returns (centroids, labels,
n_iters_). -/
def kmeansLoop (dist : List ℚ → List ℚ → ℚ) (X : List (List ℚ)) (k : ℕ)
    (tol : ℚ) (reseed : ℕ → ℕ → ℕ) :
    ℕ → ℕ → List (List ℚ) → List ℕ → List (List ℚ) × List ℕ × ℕ
  | 0, t, cents, labels => (cents, labels, t)
  | fuel + 1, t, cents, _ =>
    let labels := kmeansAssign dist X cents
    let newCents := updateCentroids X labels k (reseed t)
    if sqFrobDiff cents newCents < tol ^ 2 then (newCents, labels, t + 1)
    else kmeansLoop dist X k tol reseed fuel (t + 1) newCents labels

/-- Model of KMeans._compute_inertia (clustering.py lines 113-117):
the sum over points of euclidean_distance(x, centroids[labels[i]])**2,
which equals the sum of squared differences since squaring undoes the
square root on the nonnegative radicand.  Always the euclidean metric,
never the configured one. -/
def compute_inertia (X : List (List ℚ)) (labels : List ℕ)
    (cents : List (List ℚ)) : ℚ :=
  ((X.zip labels).map (fun p => sqEuclidDist p.1 (cents.getD p.2 []))).sum

/-- Result of KMeans.fit relevant to the claims. -/
structure KMeansFitResult where
  centroids : List (List ℚ)
  labels : List ℕ
  n_iters_ : ℕ
  inertia_ : ℚ

/-- Model of KMeans.fit (clustering.py lines 35-92): standardise (raw
stds supplied, guard applied here), take the initial centroids at the
indices drawn by np.random.choice (supplied as initIdx), run the loop,
and report the inertia of the final labels against the final
centroids. -/
def kmeansFit (dist : List ℚ → List ℚ → ℚ) (stds : List ℚ) (initIdx : List ℕ)
    (reseed : ℕ → ℕ → ℕ) (k maxIters : ℕ) (tol : ℚ)
    (X : List (List ℚ)) : KMeansFitResult :=
  let d := (X.headD []).length
  let m := colMeans d X
  let s := stds.map guardStd
  let Xs := X.map (fun r => scaleRow r m s)
  let cents0 := initIdx.map (fun i => Xs.getD i [])
  let res := kmeansLoop dist Xs k tol reseed maxIters 0 cents0 []
  { centroids := res.1
    labels := res.2.1
    n_iters_ := res.2.2
    inertia_ := compute_inertia Xs res.2.1 res.1 }

/-- The claim's inertia, written from its words: the sum over all
points of the squared Euclidean distance between the scaled point and
its assigned centroid. -/
def specInertia (Xs : List (List ℚ)) (labels : List ℕ)
    (cents : List (List ℚ)) : ℚ :=
  ((List.range Xs.length).map (fun i =>
    sqEuclidDist (Xs.getD i []) (cents.getD (labels.getD i 0) []))).sum

theorem compute_inertia_eq_spec :
    ∀ (Xs : List (List ℚ)) (labels : List ℕ) (cents : List (List ℚ)),
      labels.length = Xs.length →
      compute_inertia Xs labels cents = specInertia Xs labels cents := by
  intro Xs
  induction Xs with
  | nil =>
    intro labels cents h
    cases labels with
    | nil => rfl
    | cons _ _ => simp at h
  | cons x Xs ih =>
    intro labels cents h
    cases labels with
    | nil => simp at h
    | cons l ls =>
      have htail := ih ls cents (by simpa using h)
      unfold compute_inertia specInertia at htail ⊢
      rw [List.length_cons, List.range_succ_eq_map]
      simp only [List.map_cons, List.map_map, List.sum_cons, List.zip_cons_cons,
        List.getD_cons_zero]
      congr 1

theorem kmeansLoop_labels_length (dist : List ℚ → List ℚ → ℚ) (X : List (List ℚ))
    (k : ℕ) (tol : ℚ) (reseed : ℕ → ℕ → ℕ) :
    ∀ (fuel t : ℕ) (cents : List (List ℚ)) (labels : List ℕ),
      1 ≤ fuel ∨ labels.length = X.length →
      (kmeansLoop dist X k tol reseed fuel t cents labels).2.1.length = X.length := by
  intro fuel
  induction fuel with
  | zero =>
    intro t cents labels h
    rcases h with h | h
    · omega
    · exact h
  | succ fuel ih =>
    intro t cents labels _
    simp only [kmeansLoop]
    by_cases hshift : sqFrobDiff cents
        (updateCentroids X (kmeansAssign dist X cents) k (reseed t)) < tol ^ 2
    · rw [if_pos hshift]
      simp [kmeansAssign]
    · rw [if_neg hshift]
      cases fuel with
      | zero =>
        apply ih
        right
        simp [kmeansAssign]
      | succ fuel2 =>
        apply ih
        left
        omega

/-- Claim C6 (confirmed): for every dataset, every configured
assignment metric dist, every random initialisation and reseed draw,
and every budget of at least one iteration, the inertia reported by
KMeans.fit equals the sum over all points of the SQUARED EUCLIDEAN
distance between the scaled point and its assigned (final) centroid —
the metric parameter influences only the assignment, never the
inertia. -/
theorem kmeans_inertia_squared_euclidean (dist : List ℚ → List ℚ → ℚ)
    (stds : List ℚ) (initIdx : List ℕ) (reseed : ℕ → ℕ → ℕ) (k maxIters : ℕ)
    (tol : ℚ) (X : List (List ℚ)) (hiter : 1 ≤ maxIters) :
    (kmeansFit dist stds initIdx reseed k maxIters tol X).inertia_
      = specInertia
          (X.map (fun r =>
            scaleRow r (colMeans (X.headD []).length X) (stds.map guardStd)))
          (kmeansFit dist stds initIdx reseed k maxIters tol X).labels
          (kmeansFit dist stds initIdx reseed k maxIters tol X).centroids := by
  simp only [kmeansFit]
  apply compute_inertia_eq_spec
  rw [kmeansLoop_labels_length dist _ k tol reseed maxIters 0 _ [] (Or.inl hiter)]

/-- Witness for kmeans_inertia_squared_euclidean: k = 1 on the
two-point dataset [[0], [2]] (exact np.std 1, scaled points [-1] and
[1]) converges to the single centroid [0] in two iterations; the
reported inertia is 1 + 1 = 2, the sum of squared euclidean distances
of the scaled points to their centroid. -/
theorem kmeans_inertia_squared_euclidean_witness :
    (1 : ℕ) ≤ 2
    ∧ (kmeansFit sqEuclidDist [1] [0] (fun _ _ => 0) 1 2 (1 / 10)
          [[(0 : ℚ)], [2]]).inertia_
        = specInertia
            ([[(0 : ℚ)], [2]].map (fun r =>
              scaleRow r (colMeans ([[(0 : ℚ)], [2]].headD []).length [[(0 : ℚ)], [2]])
                ([(1 : ℚ)].map guardStd)))
            (kmeansFit sqEuclidDist [1] [0] (fun _ _ => 0) 1 2 (1 / 10)
              [[(0 : ℚ)], [2]]).labels
            (kmeansFit sqEuclidDist [1] [0] (fun _ _ => 0) 1 2 (1 / 10)
              [[(0 : ℚ)], [2]]).centroids
    ∧ (kmeansFit sqEuclidDist [1] [0] (fun _ _ => 0) 1 2 (1 / 10)
          [[(0 : ℚ)], [2]]).inertia_ = 2 :=
  ⟨by norm_num,
   kmeans_inertia_squared_euclidean sqEuclidDist [1] [0] (fun _ _ => 0) 1 2
     (1 / 10) [[0], [2]] (by norm_num),
   by
     norm_num [kmeansFit, kmeansLoop, kmeansAssign, updateCentroids, meanVec,
       colVals, colMeans, meanQ, scaleRow, guardStd, eps10, sqFrobDiff,
       sqEuclidDist, compute_inertia, argminIdx, argminFrom, List.range_succ]⟩
